import Mathlib

/-!
Verification development for the dms transcoding/seek engine:
the DLNA NPT/byte range converter (package dlna), the command line
tokenizer and stream codec planner (package transcode).

Go integer arithmetic is modelled over ℤ/ℕ with explicit two's-complement
wrapping where the original 64-bit operations can overflow.  Durations
(Go time.Duration) are modelled as signed nanosecond counts in ℤ.
-/

/-! ### Modelling the numeric core of calculateNPTPosition

The Go function computes
  position := new(big.Rat).SetFrac64(bytePos, totalSize)
  nanos    := new(big.Rat).Mul(position, big.Rat(duration))
  durNanos, _ := nanos.Float64()
  return time.Duration(math.Round(durNanos))
All big.Rat arithmetic is exact, so nanos is the exact rational
bytePos*duration/totalSize.  Rat.Float64 returns the nearest float64
(round to nearest, ties to even, 53 significant bits).  We model that
conversion by exact integer arithmetic on the numerator and denominator.
The model keeps the exponent unbounded; it agrees with IEEE-754 float64
whenever the value is zero or has magnitude inside the normal double
range, which holds for every value reachable from int64 arguments
(a nonzero nanos has magnitude between 1/2^63 and 2^126).
The final float64-to-int64 conversion is modelled as exact; in Go it is
implementation-specific once the rounded value overflows int64, which the
range theorems below avoid by bounding the duration.
-/

/-- bitLenAux is a fuel-driven helper computing the binary length of a
natural number (the fuel makes the recursion structural so that the
kernel can evaluate it). -/
def bitLenAux : ℕ → ℕ → ℕ
  | 0, _ => 0
  | fuel+1, n => if n = 0 then 0 else bitLenAux fuel (n / 2) + 1

/-- bitLen n is the number of binary digits of n, so for n ≥ 1 we have
2 ^ (bitLen n - 1) ≤ n < 2 ^ bitLen n. -/
def bitLen (n : ℕ) : ℕ := bitLenAux n n

/-- ratFloorLog2 n d computes ⌊log₂ (n/d)⌋ for n, d ≥ 1. -/
def ratFloorLog2 (n d : ℕ) : ℤ :=
  let a : ℤ := (bitLen n : ℤ) - 1
  let b : ℤ := (bitLen d : ℤ) - 1
  if d * 2 ^ (a - b).toNat ≤ n * 2 ^ (b - a).toNat then a - b else a - b - 1

/-- rneNat num den rounds the fraction num/den (den ≥ 1) to the nearest
natural number, breaking ties towards the even candidate.  This is the
rounding used when big.Rat.Float64 produces the 53-bit significand. -/
def rneNat (num den : ℕ) : ℕ :=
  let q := num / den
  let r := num % den
  if 2 * r < den then q
  else if den < 2 * r then q + 1
  else if q % 2 = 0 then q else q + 1

/-- flPair n d returns the significand/exponent pair (m, e) of the
float64 nearest to the positive rational n/d: the float value is
m * 2 ^ (e - 52) with 2^52 ≤ m ≤ 2^53.  It models (*big.Rat).Float64 on
positive values in the normal double range. -/
def flPair (n d : ℕ) : ℕ × ℤ :=
  let e := ratFloorLog2 n d
  let num := n * 2 ^ (52 - e).toNat
  let den := d * 2 ^ (e - 52).toNat
  (rneNat num den, e)

/-- mathRoundPos m e computes math.Round applied to the nonnegative
float64 with significand m and exponent e (value m * 2 ^ (e - 52)):
rounding half away from zero, so floor(x + 1/2) for x ≥ 0. -/
def mathRoundPos (m : ℕ) (e : ℤ) : ℕ :=
  if 52 ≤ e then m * 2 ^ (e - 52).toNat
  else (2 * m + 2 ^ (52 - e).toNat) / 2 ^ ((52 - e).toNat + 1)

/-- calculateNPTPosition models the Go function of the same name: the
NPT position (in nanoseconds) for a byte offset, computed through exact
rational arithmetic, a conversion to float64 and math.Round.  Negative
values are handled by the sign symmetry of both Float64 and math.Round. -/
def calculateNPTPosition (bytePos totalSize duration : ℤ) : ℤ :=
  if totalSize ≤ 0 then 0
  else
    let n := bytePos * duration
    if n = 0 then 0
    else
      let p := flPair n.natAbs totalSize.toNat
      let r : ℤ := mathRoundPos p.1 p.2
      if 0 < n then r else -r

/-! ### Decimal digit strings

Helpers shared by the models of strconv.FormatInt, strconv.ParseInt,
fmt.Sprintf %0Nd padding and fmt.Sscanf %d scanning. -/

/-- digitChar n is the ASCII digit character for n < 10. -/
def digitChar (n : ℕ) : Char := Char.ofNat (48 + n)

/-- digitsAux is a fuel-driven most-significant-first decimal rendering
of a natural number (structural recursion so the kernel can evaluate). -/
def digitsAux : ℕ → ℕ → List Char
  | 0, _ => []
  | fuel+1, n => if n < 10 then [digitChar n] else digitsAux fuel (n / 10) ++ [digitChar (n % 10)]

/-- digitsOf n is the decimal rendering of n without leading zeroes
(and "0" for 0). -/
def digitsOf (n : ℕ) : List Char := digitsAux (n + 1) n

/-- natOfDigits folds a list of ASCII digit characters into the natural
number they denote, most significant first. -/
def natOfDigits (l : List Char) : ℕ := l.foldl (fun acc c => 10 * acc + (c.toNat - 48)) 0

/-- natStr models strconv.Itoa on a natural number. -/
def natStr (n : ℕ) : String := String.mk (digitsOf n)

/-- intToDecimal models strconv.FormatInt(n, 10) / strconv.Itoa. -/
def intToDecimal (n : ℤ) : String := if n < 0 then "-" ++ natStr n.natAbs else natStr n.toNat

/-- padZeros w l left-pads l with ASCII zeroes to length w. -/
def padZeros (w : ℕ) (l : List Char) : List Char := List.replicate (w - l.length) '0' ++ l

/-- intPad w n models fmt.Sprintf with the zero-padded integer verb of
width w (for example %02d): the minus sign of a negative value occupies
one position of the width and padding is inserted after it. -/
def intPad (w : ℕ) (n : ℤ) : String :=
  if n < 0 then "-" ++ String.mk (padZeros (w - 1) (digitsOf n.natAbs))
  else String.mk (padZeros w (digitsOf n.toNat))

/-! ### Modelling fmt.Sscanf with format %d:%2d:%2d.%3d (ParseNPTTime) -/

/-- isSpaceChar recognises the ASCII whitespace skipped by fmt verbs. -/
def isSpaceChar (c : Char) : Bool := c = ' ' ∨ c = '\t' ∨ c = '\n' ∨ c = '\r'

/-- scanIntCore models one %d verb of fmt.Sscanf scanning into an int64:
leading whitespace is skipped, an optional sign and then at least one
decimal digit are read (at most width characters in total when a width
such as %2d is given), and a value overflowing int64 is an error. -/
def scanIntCore (width : Option ℕ) (l : List Char) : Except String (ℤ × List Char) :=
  match l.dropWhile isSpaceChar with
  | [] => Except.error "unexpected EOF"
  | c :: t =>
    let hasSign := c = '+' ∨ c = '-'
    let neg := c = '-'
    let body := if hasSign then t else c :: t
    let used : ℕ := if hasSign then 1 else 0
    let budget := match width with | none => body.length | some w => w - used
    let ds := (body.take budget).takeWhile (fun x => x.isDigit)
    if ds = [] then Except.error "expected integer"
    else
      let v : ℕ := natOfDigits ds
      let rest := body.drop ds.length
      if neg then
        if (v : ℤ) ≤ 2 ^ 63 then Except.ok (-(v : ℤ), rest) else Except.error "value out of range"
      else
        if (v : ℤ) ≤ 2 ^ 63 - 1 then Except.ok ((v : ℤ), rest) else Except.error "value out of range"

/-- expectChar models a literal non-space character of an Sscanf format:
it must match the next input character exactly. -/
def expectChar (c : Char) (l : List Char) : Except String (List Char) :=
  match l with
  | [] => Except.error "unexpected EOF"
  | x :: t => if x = c then Except.ok t else Except.error "input does not match format"

/-- sscanfNPT models fmt.Sscanf(s, "%d:%2d:%2d.%3d", &h, &m, &sec, &ms):
it returns the four scanned values (zero where scanning did not reach),
the number of verbs successfully scanned, and the error if any. -/
def sscanfNPT (s : String) : (ℤ × ℤ × ℤ × ℤ) × ℕ × Option String :=
  match scanIntCore none s.data with
  | Except.error e => ((0, 0, 0, 0), 0, some e)
  | Except.ok (h, l1) =>
    match expectChar ':' l1 with
    | Except.error e => ((h, 0, 0, 0), 1, some e)
    | Except.ok l2 =>
      match scanIntCore (some 2) l2 with
      | Except.error e => ((h, 0, 0, 0), 1, some e)
      | Except.ok (m, l3) =>
        match expectChar ':' l3 with
        | Except.error e => ((h, m, 0, 0), 2, some e)
        | Except.ok l4 =>
          match scanIntCore (some 2) l4 with
          | Except.error e => ((h, m, 0, 0), 2, some e)
          | Except.ok (sec, l5) =>
            match expectChar '.' l5 with
            | Except.error e => ((h, m, sec, 0), 3, some e)
            | Except.ok l6 =>
              match scanIntCore (some 3) l6 with
              | Except.error e => ((h, m, sec, 0), 3, some e)
              | Except.ok (ms, _) => ((h, m, sec, ms), 4, none)

/-- wrap64 reduces an integer to the signed 64-bit range, modelling Go's
two's-complement int64 arithmetic. -/
def wrap64 (x : ℤ) : ℤ := (x + 2 ^ 63) % 2 ^ 64 - 2 ^ 63

/-- nptDuration accumulates h:m:sec.ms into nanoseconds exactly as the Go
code does, with an int64 wrap at every multiplication and addition. -/
def nptDuration (h m sec ms : ℤ) : ℤ :=
  let t1 := wrap64 (h * 3600000000000)
  let t2 := wrap64 (t1 + wrap64 (m * 60000000000))
  let t3 := wrap64 (t2 + wrap64 (sec * 1000000000))
  wrap64 (t3 + wrap64 (ms * 1000000))

/-- parseNPTTime models ParseNPTTime: Sscanf with %d:%2d:%2d.%3d, an
error (with result -1) if Sscanf failed, the n < 3 check, and the
duration accumulation. -/
def parseNPTTime (s : String) : ℤ × Option String :=
  match sscanfNPT s with
  | ((h, m, sec, ms), n, err) =>
    match err with
    | some e => (-1, some e)
    | none =>
      if n < 3 then (-1, some ("invalid npt time: " ++ s))
      else (nptDuration h m sec ms, none)

/-- formatNPTTime models FormatNPTTime: repeated Go integer division and
remainder (truncating towards zero) and Sprintf "%02d:%02d:%02d.%03d". -/
def formatNPTTime (npt : ℤ) : String :=
  let t := Int.tdiv npt 1000000
  let ms := Int.tmod t 1000
  let t2 := Int.tdiv t 1000
  let s := Int.tmod t2 60
  let t3 := Int.tdiv t2 60
  let m := Int.tmod t3 60
  let h := Int.tdiv t3 60
  intPad 2 h ++ ":" ++ intPad 2 m ++ ":" ++ intPad 2 s ++ "." ++ intPad 3 ms

/-! ### NPT ranges and the HTTP range converter -/

/-- NPTRange mirrors the Go struct: NPT start/end times in nanoseconds
and the inclusive byte range. -/
structure NPTRange where
  start : ℤ
  end_ : ℤ
  startByte : ℤ
  endByte : ℤ
deriving DecidableEq, Repr

/-- goSplitN2 models strings.SplitN(s, sep, 2) for a one-character
separator: split around the first occurrence of sep, at most two parts. -/
def goSplitN2 (sep : Char) : List Char → List (List Char)
  | [] => [[]]
  | c :: t =>
    if c = sep then [[], t]
    else
      match goSplitN2 sep t with
      | [] => [[c]]
      | h :: r => (c :: h) :: r

/-- goParseInt models strconv.ParseInt(s, 10, 64): an optional sign, at
least one digit, nothing else, with the int64 range check. -/
def goParseInt (l : List Char) : Option ℤ :=
  match l with
  | [] => none
  | c :: t =>
    let body := if c = '+' ∨ c = '-' then t else c :: t
    if body = [] then none
    else if ¬ body.all (fun x => x.isDigit) then none
    else
      let v : ℕ := natOfDigits body
      if c = '-' then
        if (v : ℤ) ≤ 2 ^ 63 then some (-(v : ℤ)) else none
      else
        if (v : ℤ) ≤ 2 ^ 63 - 1 then some (v : ℤ) else none

/-- isSignedDigits is the purely syntactic description of the strings
strconv.ParseInt can accept: an optional sign followed by one or more
ASCII digits. -/
def isSignedDigits (l : List Char) : Bool :=
  match l with
  | [] => false
  | c :: t =>
    if c = '+' ∨ c = '-' then decide (t ≠ []) && t.all (fun x => x.isDigit)
    else (c :: t).all (fun x => x.isDigit)

/-- isWholeResource is the guard of the whole-resource fast path of
ParseHTTPRangeToNPTRange: the header is bytes=0- or bytes=0-(size-1). -/
def isWholeResource (rangeHeader : String) (totalSize : ℤ) : Bool :=
  rangeHeader == "bytes=0-" || rangeHeader == "bytes=0-" ++ intToDecimal (totalSize - 1)

/-- parseHTTPRangeToNPTRange models ParseHTTPRangeToNPTRange.  The
whole-resource fast path returns its constant result without touching
calculateNPTPosition; otherwise the single range bytes=start-end is
parsed, validated against 0 ≤ start ≤ end < totalSize, and converted.
Errors are returned with the zero NPTRange, as in Go. -/
def parseHTTPRangeToNPTRange (rangeHeader : String) (totalSize duration : ℤ) : NPTRange × Option String :=
  if isWholeResource rangeHeader totalSize then
    (⟨0, duration, 0, totalSize - 1⟩, none)
  else if rangeHeader.data.take 6 ≠ "bytes=".data then
    (⟨0, 0, 0, 0⟩, some ("unsupported range format: " ++ rangeHeader))
  else
    match goSplitN2 '-' (rangeHeader.data.drop 6) with
    | [p0, p1] =>
      match goParseInt p0 with
      | none => (⟨0, 0, 0, 0⟩, some "invalid start byte value")
      | some startByte =>
        match (if p1 = [] then some (totalSize - 1) else goParseInt p1) with
        | none => (⟨0, 0, 0, 0⟩, some "invalid end byte value")
        | some endByte =>
          if startByte < 0 ∨ totalSize ≤ endByte ∨ endByte < startByte then
            (⟨0, 0, 0, 0⟩, some "range out of bounds")
          else
            let startTime := calculateNPTPosition startByte totalSize duration
            let endTime0 := calculateNPTPosition (endByte + 1) totalSize duration
            let endTime := if duration < endTime0 then duration else endTime0
            (⟨startTime, endTime, startByte, endByte⟩, none)
    | _ => (⟨0, 0, 0, 0⟩, some "invalid range format")

/-- parseNPTRangeEnd models the second half of ParseNPTRange, reading
ss[1]; the result none models the Go panic when ss has one element. -/
def parseNPTRangeEnd (r : NPTRange) (rest : List (List Char)) : Option (NPTRange × Option String) :=
  match rest with
  | [] => none
  | s1 :: _ =>
    if s1 = [] then some (r, none)
    else
      let p := parseNPTTime (String.mk s1)
      some ({ r with end_ := p.1 }, p.2)

/-- parseNPTRange models ParseNPTRange; the outer Option models
termination: none is the index-out-of-range panic on ss[1], some is a
normal (value, error) return. -/
def parseNPTRange (s : String) : Option (NPTRange × Option String) :=
  match goSplitN2 '-' s.data with
  | [] => none
  | s0 :: rest =>
    if s0 = [] then parseNPTRangeEnd ⟨0, 0, 0, 0⟩ rest
    else
      let p := parseNPTTime (String.mk s0)
      match p.2 with
      | some e => some (⟨p.1, 0, 0, 0⟩, some e)
      | none => parseNPTRangeEnd ⟨p.1, 0, 0, 0⟩ rest

/-! ### The command line tokenizer (parseCommandLine) -/

/-- TokPhase is the state variable of the tokenizer: the Go strings
"start", "arg" and "quotes". -/
inductive TokPhase
  | start
  | arg
  | quotes
deriving DecidableEq, Repr

/-- TokSt is the complete mutable state of the Go tokenizer loop. -/
structure TokSt where
  args : List (List Char)
  current : List Char
  phase : TokPhase
  quote : Char
  escapeNext : Bool
deriving DecidableEq, Repr

/-- tokStep is one iteration of the parseCommandLine loop body, with the
branches in the exact order of the Go code. -/
def tokStep (st : TokSt) (c : Char) : TokSt :=
  if st.phase = TokPhase.quotes then
    if c ≠ st.quote then { st with current := st.current ++ [c] }
    else { st with args := st.args ++ [st.current], current := [], phase := TokPhase.start }
  else if st.escapeNext then { st with current := st.current ++ [c], escapeNext := false }
  else if c = '\\' then { st with escapeNext := true }
  else if c = '"' ∨ c = '\'' then { st with phase := TokPhase.quotes, quote := c }
  else if st.phase = TokPhase.arg then
    if c = ' ' ∨ c = '\t' then { st with args := st.args ++ [st.current], current := [], phase := TokPhase.start }
    else { st with current := st.current ++ [c] }
  else if c ≠ ' ' ∧ c ≠ '\t' then { st with phase := TokPhase.arg, current := st.current ++ [c] }
  else st

/-- tokRun folds tokStep over the input characters. -/
def tokRun (st : TokSt) : List Char → TokSt
  | [] => st
  | c :: rest => tokRun (tokStep st c) rest

/-- parseCommandLine models the Go tokenizer, including the initial
escapeNext = true quirk, the unclosed-quote error (returning an empty
vector and an error naming the input) and the trailing-field flush. -/
def parseCommandLine (command : String) : List String × Option String :=
  let st := tokRun ⟨[], [], TokPhase.start, '"', true⟩ command.data
  if st.phase = TokPhase.quotes then
    ([], some ("Unclosed quote in command line: " ++ command))
  else
    let finalArgs := if st.current ≠ [] then st.args ++ [st.current] else st.args
    (finalArgs.map (fun l => String.mk l), none)

/-- tokHeadSub a b sa sb relates two tokenizer states that agree in
every component except that the first character ever consumed was a in
sa and b in sb: either nothing was flushed yet and the currents are
a :: t and b :: t, or the first flushed argument differs in exactly its
first character. -/
def tokHeadSub (a b : Char) (sa sb : TokSt) : Prop :=
  sa.phase = sb.phase ∧ sa.quote = sb.quote ∧ sa.escapeNext = sb.escapeNext ∧
  ((sa.args = [] ∧ sb.args = [] ∧ ∃ t, sa.current = a :: t ∧ sb.current = b :: t) ∨
   (∃ t rest, sa.args = (a :: t) :: rest ∧ sb.args = (b :: t) :: rest ∧ sa.current = sb.current))

/-! ### The stream codec planner (generateStreamArgs) -/

/-- StreamDesc is one probed stream descriptor: the absolute input index
(already normalised to an integer as getStreamAlias does) and the
codec_type and codec_name strings. -/
structure StreamDesc where
  index : ℤ
  codecType : String
  codecName : String
deriving DecidableEq, Repr

/-- streamAlias models getStreamAlias: the input-addressing string
"0:" followed by the absolute stream index. -/
def streamAlias (s : StreamDesc) : String := "0:" ++ intToDecimal s.index

/-- streamArgsFor is the body of the generateStreamArgs loop for one
stream, given the current output counters.  The aresample=async=10000
filter appended after the audio switch when defaultFilter remains true
is inlined into the two branches that keep defaultFilter true. -/
def streamArgsFor (s : StreamDesc) (v a sub : ℕ) : List String :=
  if s.codecType = "video" then
    if s.codecName ∈ ["mjpeg", "png", "bmp", "webp", "tiff", "j2k", "jpeg2000"] then
      ["-map", streamAlias s, "-c:v:" ++ natStr v, "copy"]
    else
      ["-map", streamAlias s,
       "-c:v:" ++ natStr v, "mpeg2video",
       "-b:v:" ++ natStr v, "6000k",
       "-minrate:v:" ++ natStr v, "3000k",
       "-maxrate:v:" ++ natStr v, "8000k",
       "-bufsize:v:" ++ natStr v, "1835k",
       "-g:v:" ++ natStr v, "15",
       "-bf:v:" ++ natStr v, "2",
       "-flags:v:" ++ natStr v, "+ilme+ildct",
       "-filter:v:" ++ natStr v, "fieldorder=tff",
       "-aspect:v:" ++ natStr v, "16:9",
       "-s:v:" ++ natStr v, "720x576",
       "-r:v:" ++ natStr v, "25",
       "-vsync", "cfr"]
  else if s.codecType = "audio" then
    if s.codecName ∈ ["aac", "dca", "ac3", "mp2", "mp3", "opus", "flac", "pcm_s16le"] then
      ["-map", streamAlias s, "-c:a:" ++ natStr a, "ac3", "-b:a:" ++ natStr a, "224k",
       "-ac:a:" ++ natStr a, "2", "-filter:a:" ++ natStr a, "aresample=async=10000"]
    else if s.codecName ∈ ["eac3", "dts"] then
      ["-map", streamAlias s, "-c:a:" ++ natStr a, "ac3", "-b:a:" ++ natStr a, "448k",
       "-ac:a:" ++ natStr a, "2", "-filter:a:" ++ natStr a, "aresample=async=10000"]
    else if s.codecName = "truehd" then
      ["-map", streamAlias s, "-c:a:" ++ natStr a, "ac3", "-b:a:" ++ natStr a, "640k",
       "-ac:a:" ++ natStr a, "6", "-ar:a:" ++ natStr a, "48000",
       "-sample_fmt:a:3" ++ natStr a, "fltp",
       "-filter:a:" ++ natStr a, "aresample=ocl=stereo:async=10000,channelmap=channel_layout=5.1"]
    else
      ["-map", streamAlias s, "-c:a:" ++ natStr a, "copy"]
  else if s.codecType = "subtitle" then
    if s.codecName ∈ ["srt", "dvdsub"] then
      ["-map", streamAlias s, "-c:s:" ++ natStr sub, "dvbsub", "-fix_sub_duration", "-canvas_size", "720x576"]
    else
      ["-map", streamAlias s, "-c:s:" ++ natStr sub, "copy"]
  else
    ["-map", streamAlias s, "-c", "copy"]

/-- streamCounterBump gives the per-stream increments of the three
output counters (video, audio, subtitle). -/
def streamCounterBump (s : StreamDesc) : ℕ × ℕ × ℕ :=
  if s.codecType = "video" then (1, 0, 0)
  else if s.codecType = "audio" then (0, 1, 0)
  else if s.codecType = "subtitle" then (0, 0, 1)
  else (0, 0, 0)

/-- genGo is the generateStreamArgs loop with explicit counters. -/
def genGo : List StreamDesc → ℕ → ℕ → ℕ → List String
  | [], _, _, _ => []
  | s :: rest, v, a, sub =>
    streamArgsFor s v a sub ++
      genGo rest (v + (streamCounterBump s).1) (a + (streamCounterBump s).2.1) (sub + (streamCounterBump s).2.2)

/-- generateStreamArgs models the Go function of the same name. -/
def generateStreamArgs (streams : List StreamDesc) : List String := genGo streams 0 0 0

/-- canonNPT renders h:m:s.ms in the canonical zero-padded form
HH:MM:SS.mmm (hour field two digits or more); this is the comparison
object for the formatNPT/parseNPT round-trip property. -/
def canonNPT (h m s ms : ℕ) : String :=
  String.mk (padZeros 2 (digitsOf h) ++ ':' ::
    (padZeros 2 (digitsOf m) ++ ':' ::
      (padZeros 2 (digitsOf s) ++ '.' :: padZeros 3 (digitsOf ms))))

/-! ### Claim C1: the whole-resource fast path -/

/-- C1: for every totalSize > 0 and every duration, the headers bytes=0-
and bytes=0-(totalSize-1) satisfy the whole-resource fast-path guard and
ParseHTTPRangeToNPTRange returns, with no error, the NPTRange with start
time 0, end time the full duration, start byte 0 and end byte
totalSize-1; the fast-path branch returns this constant directly and
performs no rational arithmetic (calculateNPTPosition is not invoked). -/
theorem parseHTTPRange_wholeResource_fastPath (T D : ℤ) (hT : 0 < T) :
    isWholeResource "bytes=0-" T = true ∧
    isWholeResource ("bytes=0-" ++ intToDecimal (T - 1)) T = true ∧
    parseHTTPRangeToNPTRange "bytes=0-" T D = (⟨0, D, 0, T - 1⟩, none) ∧
    parseHTTPRangeToNPTRange ("bytes=0-" ++ intToDecimal (T - 1)) T D = (⟨0, D, 0, T - 1⟩, none) := by
  have h1 : isWholeResource "bytes=0-" T = true := by
    simp [isWholeResource]
  have h2 : isWholeResource ("bytes=0-" ++ intToDecimal (T - 1)) T = true := by
    simp [isWholeResource]
  refine ⟨h1, h2, ?_, ?_⟩ <;> simp [parseHTTPRangeToNPTRange, h1, h2]

/-- Witness for C1 at totalSize 100 and duration 777. -/
theorem parseHTTPRange_wholeResource_fastPath_witness :
    isWholeResource "bytes=0-" 100 = true ∧
    isWholeResource ("bytes=0-" ++ intToDecimal (100 - 1)) 100 = true ∧
    parseHTTPRangeToNPTRange "bytes=0-" 100 777 = (⟨0, 777, 0, 100 - 1⟩, none) ∧
    parseHTTPRangeToNPTRange ("bytes=0-" ++ intToDecimal (100 - 1)) 100 777 =
      (⟨0, 777, 0, 100 - 1⟩, none) :=
  parseHTTPRange_wholeResource_fastPath 100 777 (by decide)

/-! ### Claim C3: ParseNPTTime and the missing fractional part

ParseNPTTime checks the Sscanf error before its own n < 3 item count
check.  Sscanf reports an error whenever fewer than all four verbs of
%d:%2d:%2d.%3d were scanned, so the n < 3 check is unreachable and an
input with hour, minute and second but no fractional part is rejected,
although that check (and the spec) plainly intend it to be accepted. -/

/-- C3 (code-bug evidence): on the input 1:00:00 the scan stops at the
missing literal dot with three items scanned and a non-nil error, so
ParseNPTTime returns an error even though hour, minute and second are
all present; with the fractional part supplied the same time parses. -/
theorem parseNPTTime_missingFraction_errors :
    sscanfNPT "1:00:00" = ((1, 0, 0, 0), 3, some "unexpected EOF") ∧
    parseNPTTime "1:00:00" = (-1, some "unexpected EOF") ∧
    parseNPTTime "1:00:00.000" = (3600000000000, none) := by decide

/-! ### Claim C8: the planner's mjpeg and truehd mappings -/

/-- C8: in the generateStreamArgs loop (genGo, at arbitrary output
counters, so at any position of the stream list), a video stream whose
codec name is mjpeg emits exactly the passthrough mapping with output
codec argument copy, and an audio stream whose codec name is truehd
emits exactly the AC-3 mapping with codec argument ac3 and bitrate
argument 640k. -/
theorem generateStreamArgs_mjpeg_truehd (s : StreamDesc) (rest : List StreamDesc) (v a sub : ℕ) :
    (s.codecType = "video" → s.codecName = "mjpeg" →
      genGo (s :: rest) v a sub =
        ["-map", streamAlias s, "-c:v:" ++ natStr v, "copy"] ++ genGo rest (v + 1) a sub) ∧
    (s.codecType = "audio" → s.codecName = "truehd" →
      genGo (s :: rest) v a sub =
        ["-map", streamAlias s, "-c:a:" ++ natStr a, "ac3", "-b:a:" ++ natStr a, "640k",
         "-ac:a:" ++ natStr a, "6", "-ar:a:" ++ natStr a, "48000",
         "-sample_fmt:a:3" ++ natStr a, "fltp",
         "-filter:a:" ++ natStr a,
         "aresample=ocl=stereo:async=10000,channelmap=channel_layout=5.1"] ++
          genGo rest v (a + 1) sub) := by
  constructor
  · intro hv hn
    simp [genGo, streamArgsFor, streamCounterBump, hv, hn]
  · intro ha hn
    simp [genGo, streamArgsFor, streamCounterBump, ha, hn]

/-- Witness for C8 on a one-element stream list of each kind. -/
theorem generateStreamArgs_mjpeg_truehd_witness :
    (genGo [⟨0, "video", "mjpeg"⟩] 0 0 0 =
      ["-map", streamAlias ⟨0, "video", "mjpeg"⟩, "-c:v:" ++ natStr 0, "copy"] ++
        genGo [] (0 + 1) 0 0) ∧
    (genGo [⟨1, "audio", "truehd"⟩] 0 0 0 =
      ["-map", streamAlias ⟨1, "audio", "truehd"⟩, "-c:a:" ++ natStr 0, "ac3",
       "-b:a:" ++ natStr 0, "640k",
       "-ac:a:" ++ natStr 0, "6", "-ar:a:" ++ natStr 0, "48000",
       "-sample_fmt:a:3" ++ natStr 0, "fltp",
       "-filter:a:" ++ natStr 0,
       "aresample=ocl=stereo:async=10000,channelmap=channel_layout=5.1"] ++
        genGo [] 0 (0 + 1) 0) :=
  ⟨(generateStreamArgs_mjpeg_truehd ⟨0, "video", "mjpeg"⟩ [] 0 0 0).1 rfl rfl,
   (generateStreamArgs_mjpeg_truehd ⟨1, "audio", "truehd"⟩ [] 0 0 0).2 rfl rfl⟩

/-! ### Claim C5: unterminated quotes -/

/-- tokRun_quotes_stuck: once the tokenizer is inside a double-quoted
field, characters other than a double quote keep it there. -/
theorem tokRun_quotes_stuck (u : List Char) :
    ∀ st : TokSt, st.phase = TokPhase.quotes → st.quote = '"' → (∀ x ∈ u, x ≠ '"') →
      (tokRun st u).phase = TokPhase.quotes := by
  induction u with
  | nil => intro st hq _ _; exact hq
  | cons c t ih =>
    intro st hq hqu hu
    have hc : c ≠ '"' := hu c (List.mem_cons_self c t)
    have hstep : tokStep st c = { st with current := st.current ++ [c] } := by
      rw [tokStep, if_pos hq, if_pos (by rw [hqu]; exact hc)]
    show (tokRun (tokStep st c) t).phase = TokPhase.quotes
    rw [hstep]
    exact ih _ hq hqu (fun x hx => hu x (List.mem_cons_of_mem c hx))

/-- C5 (amended): for every input whose second character is a double
quote that opens a field never closed later (the first character, being
consumed as escaped, cannot open a quote), parseCommandLine returns the
SyntaxError naming the offending input, together with an empty argument
vector. -/
theorem parseCommandLine_unterminatedQuote (c : Char) (u : List Char)
    (hu : ∀ x ∈ u, x ≠ '"') :
    parseCommandLine (String.mk (c :: '"' :: u)) =
      ([], some ("Unclosed quote in command line: " ++ String.mk (c :: '"' :: u))) := by
  have h1 : tokStep ⟨[], [], TokPhase.start, '"', true⟩ c =
      ⟨[], [c], TokPhase.start, '"', false⟩ := by
    simp [tokStep]
  have h2 : tokStep ⟨[], [c], TokPhase.start, '"', false⟩ '"' =
      ⟨[], [c], TokPhase.quotes, '"', false⟩ := by
    simp [tokStep]
  have hrun : tokRun ⟨[], [], TokPhase.start, '"', true⟩ (c :: '"' :: u) =
      tokRun ⟨[], [c], TokPhase.quotes, '"', false⟩ u := by
    show tokRun (tokStep (tokStep ⟨[], [], TokPhase.start, '"', true⟩ c) '"') u = _
    rw [h1, h2]
  have hph : (tokRun ⟨[], [c], TokPhase.quotes, '"', false⟩ u).phase = TokPhase.quotes :=
    tokRun_quotes_stuck u _ rfl rfl hu
  rw [parseCommandLine]
  rw [hrun, if_pos hph]

/-- Witness for the amended C5 on the input a"bc. -/
theorem parseCommandLine_unterminatedQuote_witness :
    parseCommandLine (String.mk ('a' :: '"' :: ['b', 'c'])) =
      ([], some ("Unclosed quote in command line: " ++ String.mk ('a' :: '"' :: ['b', 'c']))) :=
  parseCommandLine_unterminatedQuote 'a' ['b', 'c'] (by decide)

/-- C5 counterexample: on the input consisting of a double quote
followed by abc the tokenizer does not fail: the position-0 quote is
consumed as an escaped literal character, and parsing succeeds with the
single argument containing the quote. -/
theorem parseCommandLine_pos0_quote_succeeds :
    parseCommandLine "\"abc" = (["\"abc"], none) := by decide

/-! ### Claim C6: the escape rule and the position-0 quirk -/

/-- tokStep_headSub: one tokenizer step preserves the first-character
substitution relation, because no branch condition of the loop body
inspects the characters already stored in current or args. -/
theorem tokStep_headSub (a b c : Char) (A B : List (List Char)) (ca cb : List Char)
    (p : TokPhase) (q : Char) (e : Bool)
    (hdisj : (A = [] ∧ B = [] ∧ ∃ t, ca = a :: t ∧ cb = b :: t) ∨
      (∃ t r, A = (a :: t) :: r ∧ B = (b :: t) :: r ∧ ca = cb)) :
    tokHeadSub a b (tokStep ⟨A, ca, p, q, e⟩ c) (tokStep ⟨B, cb, p, q, e⟩ c) := by
  simp only [tokStep]
  split_ifs
  case _ => -- quotes, character appended
    refine ⟨rfl, rfl, rfl, ?_⟩
    rcases hdisj with ⟨hA, hB, t, hca, hcb⟩ | ⟨t, r, hA, hB, hcc⟩
    · exact Or.inl ⟨hA, hB, t ++ [c], by simp [hca], by simp [hcb]⟩
    · exact Or.inr ⟨t, r, hA, hB, by simp [hcc]⟩
  case _ => -- quotes closed, current flushed
    refine ⟨rfl, rfl, rfl, ?_⟩
    rcases hdisj with ⟨hA, hB, t, hca, hcb⟩ | ⟨t, r, hA, hB, hcc⟩
    · exact Or.inr ⟨t, [], by simp [hA, hca], by simp [hB, hcb], rfl⟩
    · exact Or.inr ⟨t, r ++ [ca], by simp [hA], by simp [hB, ← hcc], rfl⟩
  case _ => -- escaped character appended
    refine ⟨rfl, rfl, rfl, ?_⟩
    rcases hdisj with ⟨hA, hB, t, hca, hcb⟩ | ⟨t, r, hA, hB, hcc⟩
    · exact Or.inl ⟨hA, hB, t ++ [c], by simp [hca], by simp [hcb]⟩
    · exact Or.inr ⟨t, r, hA, hB, by simp [hcc]⟩
  case _ => -- backslash sets escapeNext
    exact ⟨rfl, rfl, rfl, hdisj⟩
  case _ => -- quote opens a quoted field
    exact ⟨rfl, rfl, rfl, hdisj⟩
  case _ => -- separator inside an argument, current flushed
    refine ⟨rfl, rfl, rfl, ?_⟩
    rcases hdisj with ⟨hA, hB, t, hca, hcb⟩ | ⟨t, r, hA, hB, hcc⟩
    · exact Or.inr ⟨t, [], by simp [hA, hca], by simp [hB, hcb], rfl⟩
    · exact Or.inr ⟨t, r ++ [ca], by simp [hA], by simp [hB, ← hcc], rfl⟩
  case _ => -- non-separator inside an argument, appended
    refine ⟨rfl, rfl, rfl, ?_⟩
    rcases hdisj with ⟨hA, hB, t, hca, hcb⟩ | ⟨t, r, hA, hB, hcc⟩
    · exact Or.inl ⟨hA, hB, t ++ [c], by simp [hca], by simp [hcb]⟩
    · exact Or.inr ⟨t, r, hA, hB, by simp [hcc]⟩
  case _ => -- non-separator in start state, appended
    refine ⟨rfl, rfl, rfl, ?_⟩
    rcases hdisj with ⟨hA, hB, t, hca, hcb⟩ | ⟨t, r, hA, hB, hcc⟩
    · exact Or.inl ⟨hA, hB, t ++ [c], by simp [hca], by simp [hcb]⟩
    · exact Or.inr ⟨t, r, hA, hB, by simp [hcc]⟩
  case _ => -- separator in start state, no change
    exact ⟨rfl, rfl, rfl, hdisj⟩

/-- tokRun_headSub: the substitution relation is preserved by any run. -/
theorem tokRun_headSub (a b : Char) (u : List Char) :
    ∀ sa sb : TokSt, tokHeadSub a b sa sb → tokHeadSub a b (tokRun sa u) (tokRun sb u) := by
  induction u with
  | nil => intro sa sb h; exact h
  | cons c t ih =>
    intro sa sb h
    obtain ⟨A, ca, pa, qa, ea⟩ := sa
    obtain ⟨B, cb, pb, qb, eb⟩ := sb
    obtain ⟨hph, hqu, hesc, hdisj⟩ := h
    have hph' : pa = pb := hph
    have hqu' : qa = qb := hqu
    have hesc' : ea = eb := hesc
    subst hph'; subst hqu'; subst hesc'
    have hdisj' : (A = [] ∧ B = [] ∧ ∃ t, ca = a :: t ∧ cb = b :: t) ∨
        (∃ t r, A = (a :: t) :: r ∧ B = (b :: t) :: r ∧ ca = cb) := hdisj
    exact ih _ _ (tokStep_headSub a b c A B ca cb pa qa ea hdisj')

/-- C6: (i) outside a quoted field and outside an escape, a backslash
consumes itself and makes the following character a literal addition to
the current field, with everything else unchanged; (ii) this escaping
applies to position 0 of the whole input: replacing the first character
of any non-empty input by any other character (including a quote or a
backslash, which therefore have no special meaning there) changes
nothing but the first character of the first argument — in particular
the first character is always consumed as a literal field character. -/
theorem parseCommandLine_escape_firstChar :
    (∀ (st : TokSt) (c : Char) (rest : List Char),
      st.escapeNext = false → st.phase ≠ TokPhase.quotes →
      tokRun st ('\\' :: c :: rest) =
        tokRun ⟨st.args, st.current ++ [c], st.phase, st.quote, false⟩ rest) ∧
    (∀ (x y : Char) (rest : List Char),
      ((parseCommandLine (String.mk (x :: rest))).2 = none ↔
        (parseCommandLine (String.mk (y :: rest))).2 = none) ∧
      ((parseCommandLine (String.mk (x :: rest))).2 = none →
        ∃ t ss, (parseCommandLine (String.mk (x :: rest))).1 = String.mk (x :: t) :: ss ∧
          (parseCommandLine (String.mk (y :: rest))).1 = String.mk (y :: t) :: ss)) := by
  constructor
  · intro st c rest hesc hph
    obtain ⟨A, ca, pa, qa, ea⟩ := st
    subst hesc
    have e1 : tokStep ⟨A, ca, pa, qa, false⟩ '\\' = ⟨A, ca, pa, qa, true⟩ := by
      simp [tokStep, hph]
    have e2 : tokStep ⟨A, ca, pa, qa, true⟩ c = ⟨A, ca ++ [c], pa, qa, false⟩ := by
      simp [tokStep, hph]
    show tokRun (tokStep (tokStep ⟨A, ca, pa, qa, false⟩ '\\') c) rest = _
    rw [e1, e2]
  · intro x y rest
    have hx : tokRun ⟨[], [], TokPhase.start, '"', true⟩ (x :: rest) =
        tokRun ⟨[], [x], TokPhase.start, '"', false⟩ rest := by
      show tokRun (tokStep ⟨[], [], TokPhase.start, '"', true⟩ x) rest = _
      simp [tokStep]
    have hy : tokRun ⟨[], [], TokPhase.start, '"', true⟩ (y :: rest) =
        tokRun ⟨[], [y], TokPhase.start, '"', false⟩ rest := by
      show tokRun (tokStep ⟨[], [], TokPhase.start, '"', true⟩ y) rest = _
      simp [tokStep]
    have hrel : tokHeadSub x y (tokRun ⟨[], [x], TokPhase.start, '"', false⟩ rest)
        (tokRun ⟨[], [y], TokPhase.start, '"', false⟩ rest) :=
      tokRun_headSub x y rest _ _ ⟨rfl, rfl, rfl, Or.inl ⟨rfl, rfl, [], rfl, rfl⟩⟩
    obtain ⟨hph, hqu, hesc, hdisj⟩ := hrel
    have hdx : (String.mk (x :: rest)).data = x :: rest := rfl
    have hdy : (String.mk (y :: rest)).data = y :: rest := rfl
    simp only [parseCommandLine, hdx, hdy, hx, hy]
    by_cases hq : (tokRun ⟨[], [x], TokPhase.start, '"', false⟩ rest).phase = TokPhase.quotes
    · have hq' : (tokRun ⟨[], [y], TokPhase.start, '"', false⟩ rest).phase = TokPhase.quotes := by
        rw [← hph]; exact hq
      rw [if_pos hq, if_pos hq']
      exact ⟨by simp, by simp⟩
    · have hq' : ¬ (tokRun ⟨[], [y], TokPhase.start, '"', false⟩ rest).phase = TokPhase.quotes := by
        rw [← hph]; exact hq
      rw [if_neg hq, if_neg hq']
      refine ⟨by simp, fun _ => ?_⟩
      rcases hdisj with ⟨hA, hB, t, hca, hcb⟩ | ⟨t, r, hA, hB, hcc⟩
      · exact ⟨t, [], by simp [hA, hca], by simp [hB, hcb]⟩
      · by_cases hcur : (tokRun ⟨[], [x], TokPhase.start, '"', false⟩ rest).current = []
        · have hcur' : (tokRun ⟨[], [y], TokPhase.start, '"', false⟩ rest).current = [] := by
            rw [← hcc]; exact hcur
          exact ⟨t, r.map (fun l => String.mk l),
            by simp [hcur, hA], by simp [hcur', hB]⟩
        · have hcur' : ¬ (tokRun ⟨[], [y], TokPhase.start, '"', false⟩ rest).current = [] := by
            rw [← hcc]; exact hcur
          exact ⟨t, (r ++ [(tokRun ⟨[], [x], TokPhase.start, '"', false⟩ rest).current]).map
            (fun l => String.mk l),
            by simp [hcur, hA],
            by simp [hcur, hcur', hB, ← hcc]⟩

/-- Witness for C6 at a concrete state and concrete characters. -/
theorem parseCommandLine_escape_firstChar_witness :
    (tokRun ⟨[], ['p'], TokPhase.arg, '"', false⟩ ['\\', 'q', 'r'] =
      tokRun ⟨[], ['p', 'q'], TokPhase.arg, '"', false⟩ ['r']) ∧
    ((parseCommandLine (String.mk ('"' :: ['z']))).2 = none ↔
      (parseCommandLine (String.mk ('w' :: ['z']))).2 = none) :=
  ⟨parseCommandLine_escape_firstChar.1 ⟨[], ['p'], TokPhase.arg, '"', false⟩ 'q' ['r']
      rfl (by decide),
   (parseCommandLine_escape_firstChar.2 '"' 'w' ['z']).1⟩

/-! ### Claim C10: ParseNPTRange and the missing separator -/

/-- goSplitN2_not_mem: without the separator, SplitN returns one part. -/
theorem goSplitN2_not_mem (sep : Char) (l : List Char) (h : sep ∉ l) :
    goSplitN2 sep l = [l] := by
  induction l with
  | nil => rfl
  | cons c t ih =>
    have hc : ¬ c = sep := fun hc => h (hc ▸ List.mem_cons_self c t)
    have ht : sep ∉ t := fun ht => h (List.mem_cons_of_mem c ht)
    simp [goSplitN2, hc, ih ht]

/-- goSplitN2_mem: with the separator present, SplitN returns two parts. -/
theorem goSplitN2_mem (sep : Char) (l : List Char) (h : sep ∈ l) :
    ∃ x y, goSplitN2 sep l = [x, y] := by
  induction l with
  | nil => cases h
  | cons c t ih =>
    by_cases hc : c = sep
    · exact ⟨[], t, by simp [goSplitN2, hc]⟩
    · have ht : sep ∈ t := by
        cases List.mem_cons.mp h with
        | inl h' => exact absurd h'.symm hc
        | inr h' => exact h'
      obtain ⟨x, y, hxy⟩ := ih ht
      exact ⟨c :: x, y, by simp [goSplitN2, hc, hxy]⟩

/-- goSplitN2_eq_two: a two-part split reassembles around the separator,
and the separator does not occur in the first part. -/
theorem goSplitN2_eq_two (sep : Char) (l : List Char) :
    ∀ x y, goSplitN2 sep l = [x, y] → l = x ++ sep :: y ∧ sep ∉ x := by
  induction l with
  | nil => intro x y h; simp [goSplitN2] at h
  | cons c t ih =>
    intro x y h
    by_cases hc : c = sep
    · simp [goSplitN2, hc] at h
      obtain ⟨hx, hy⟩ := h
      subst hx; subst hy
      exact ⟨by simp [hc], by simp⟩
    · rw [show goSplitN2 sep (c :: t) =
          (match goSplitN2 sep t with
           | [] => [[c]]
           | h :: r => (c :: h) :: r) from by simp [goSplitN2, hc]] at h
      cases hsp : goSplitN2 sep t with
      | nil => rw [hsp] at h; simp at h
      | cons h0 r =>
        rw [hsp] at h
        simp only [List.cons.injEq] at h
        obtain ⟨hx, hr⟩ := h
        cases r with
        | nil => simp at hr
        | cons r0 rr =>
          simp only [List.cons.injEq] at hr
          obtain ⟨hy, hrr⟩ := hr
          have : t = h0 ++ sep :: r0 ∧ sep ∉ h0 := by
            apply ih
            rw [hsp, hy, hrr]
          obtain ⟨ht, hns⟩ := this
          subst hx
          constructor
          · simp [ht, hy]
          · intro hmem
            cases List.mem_cons.mp hmem with
            | inl h' => exact hc h'.symm
            | inr h' => exact hns h'

/-- C10 (amended): ParseNPTRange evaluates without panicking on every
input containing a '-'; on an input without '-', it panics with an
index-out-of-range failure on ss[1] (modelled as the result none)
exactly when the input is empty or parses successfully as an NPT time —
otherwise the parse error of the first component is returned before
ss[1] is ever read, and no panic occurs. -/
theorem parseNPTRange_panic_characterisation (s : String) :
    ('-' ∈ s.data → parseNPTRange s ≠ none) ∧
    ('-' ∉ s.data → (parseNPTRange s = none ↔ s.data = [] ∨ (parseNPTTime s).2 = none)) := by
  constructor
  · intro hmem
    obtain ⟨x, y, hxy⟩ := goSplitN2_mem '-' s.data hmem
    simp only [parseNPTRange, hxy]
    by_cases hx : x = []
    · simp [hx, parseNPTRangeEnd]
      by_cases hy : y = [] <;> simp [hy]
    · rw [if_neg hx]
      cases hp : (parseNPTTime (String.mk x)).2 with
      | none => simp [hp, parseNPTRangeEnd]; by_cases hy : y = [] <;> simp [hy]
      | some e => simp [hp]
  · intro hnm
    have hxy := goSplitN2_not_mem '-' s.data hnm
    simp only [parseNPTRange, hxy]
    by_cases hx : s.data = []
    · simp [hx, parseNPTRangeEnd]
    · rw [if_neg hx]
      have hs : String.mk s.data = s := rfl
      rw [hs]
      cases hp : (parseNPTTime s).2 with
      | none => simp [hp, parseNPTRangeEnd, hx]
      | some e => simp [hp, hx]

/-- Witness for the amended C10: a well-formed NPT time without '-'
reaches ss[1] and panics (evaluates to none). -/
theorem parseNPTRange_panic_characterisation_witness :
    parseNPTRange "1:00:00.000" = none :=
  ((parseNPTRange_panic_characterisation "1:00:00.000").2 (by decide)).mpr (Or.inr (by decide))

/-- C10 counterexample: the input abc contains no '-' and yet
ParseNPTRange does not panic: the failing parse of the first component
returns a FormatError before ss[1] is accessed. -/
theorem parseNPTRange_no_dash_no_panic :
    ('-' ∉ ("abc" : String).data) ∧
    parseNPTRange "abc" = some (⟨-1, 0, 0, 0⟩, some "expected integer") := by decide

/-! ### Claim C4: rejection of malformed, out-of-bounds and multi ranges -/

/-- goParseInt_signedDigits: strconv.ParseInt succeeds only on strings
that are an optional sign followed by one or more digits. -/
theorem goParseInt_signedDigits (l : List Char) (v : ℤ) (h : goParseInt l = some v) :
    isSignedDigits l = true := by
  cases l with
  | nil => simp [goParseInt] at h
  | cons c t =>
    simp only [goParseInt] at h
    split_ifs at h <;> simp_all [isSignedDigits]

/-- isDigit_ne_comma: an ASCII digit is not a comma. -/
theorem isDigit_ne_comma (c : Char) (h : c.isDigit = true) : c ≠ ',' := by
  intro he
  subst he
  exact absurd h (by decide)

/-- isSignedDigits_no_comma: a signed digit string contains no comma, so
any multi-range specifier fails strconv.ParseInt. -/
theorem isSignedDigits_no_comma (l : List Char) (h : isSignedDigits l = true) : ',' ∉ l := by
  cases l with
  | nil => simp
  | cons c t =>
    simp only [isSignedDigits] at h
    intro hmem
    by_cases hsign : c = '+' ∨ c = '-'
    · rw [if_pos hsign] at h
      simp only [Bool.and_eq_true, decide_eq_true_eq, List.all_eq_true] at h
      obtain ⟨_, hall⟩ := h
      cases List.mem_cons.mp hmem with
      | inl h' =>
        rcases hsign with hs | hs <;> rw [hs] at h' <;> exact absurd h' (by decide)
      | inr h' => exact isDigit_ne_comma _ (hall _ h') rfl
    · rw [if_neg hsign] at h
      simp only [List.all_eq_true] at h
      cases List.mem_cons.mp hmem with
      | inl h' => exact isDigit_ne_comma c (h c (List.mem_cons_self c t)) h'.symm
      | inr h' => exact isDigit_ne_comma _ (h _ (List.mem_cons_of_mem c h')) rfl

/-- C4: outside the whole-resource fast path, ParseHTTPRangeToNPTRange
returns a successful result only for a header of the single-range shape
bytes=start-end (start a signed digit string, end empty or a signed
digit string) whose byte values were validated against
0 ≤ start ≤ end < totalSize; any header containing a comma (in
particular every multi-range specifier) is rejected with an error, and
every error leaves the returned range at its zero value. -/
theorem parseHTTPRange_nonFast_validation (header : String) (T D : ℤ) (r : NPTRange)
    (err : Option String) (hfast : isWholeResource header T = false)
    (hres : parseHTTPRangeToNPTRange header T D = (r, err)) :
    (err = none →
      (0 ≤ r.startByte ∧ r.startByte ≤ r.endByte ∧ r.endByte < T) ∧
      ∃ p0 p1, header.data = "bytes=".data ++ p0 ++ '-' :: p1 ∧
        isSignedDigits p0 = true ∧ (p1 = [] ∨ isSignedDigits p1 = true)) ∧
    (',' ∈ header.data → err ≠ none) ∧
    (err ≠ none → r = ⟨0, 0, 0, 0⟩) := by
  have hfast' : ¬ (isWholeResource header T = true) := by simp [hfast]
  rw [parseHTTPRangeToNPTRange, if_neg hfast'] at hres
  by_cases hpre : header.data.take 6 = "bytes=".data
  case neg =>
    rw [if_pos hpre] at hres
    rw [Prod.mk.injEq] at hres
    obtain ⟨h1, h2⟩ := hres
    exact ⟨fun he => absurd (h2.trans he) (by simp),
      fun _ => by rw [← h2]; simp, fun _ => h1.symm⟩
  case pos =>
    rw [if_neg (not_not_intro hpre)] at hres
    by_cases hmem : '-' ∈ header.data.drop 6
    case neg =>
      have hsp := goSplitN2_not_mem '-' _ hmem
      simp only [hsp] at hres
      rw [Prod.mk.injEq] at hres
      obtain ⟨h1, h2⟩ := hres
      exact ⟨fun he => absurd (h2.trans he) (by simp),
        fun _ => by rw [← h2]; simp, fun _ => h1.symm⟩
    case pos =>
      obtain ⟨x, y, hsp⟩ := goSplitN2_mem '-' _ hmem
      simp only [hsp] at hres
      have hdata : header.data = "bytes=".data ++ (x ++ '-' :: y) := by
        calc header.data = header.data.take 6 ++ header.data.drop 6 :=
              (List.take_append_drop 6 header.data).symm
          _ = "bytes=".data ++ (x ++ '-' :: y) := by
              rw [hpre, (goSplitN2_eq_two '-' (header.data.drop 6) x y hsp).1]
      cases hP0 : goParseInt x with
      | none =>
        simp only [hP0] at hres
        rw [Prod.mk.injEq] at hres
        obtain ⟨h1, h2⟩ := hres
        exact ⟨fun he => absurd (h2.trans he) (by simp),
          fun _ => by rw [← h2]; simp, fun _ => h1.symm⟩
      | some sb =>
        simp only [hP0] at hres
        have hx : isSignedDigits x = true := goParseInt_signedDigits x sb hP0
        by_cases hy : y = []
        · simp only [if_pos hy] at hres
          by_cases hbad : sb < 0 ∨ T ≤ T - 1 ∨ T - 1 < sb
          · rw [if_pos hbad] at hres
            rw [Prod.mk.injEq] at hres
            obtain ⟨h1, h2⟩ := hres
            exact ⟨fun he => absurd (h2.trans he) (by simp),
              fun _ => by rw [← h2]; simp, fun _ => h1.symm⟩
          · rw [if_neg hbad] at hres
            rw [Prod.mk.injEq] at hres
            obtain ⟨h1, h2⟩ := hres
            push_neg at hbad
            obtain ⟨hb1, _, hb3⟩ := hbad
            have hnc : ',' ∉ header.data := by
              rw [hdata]
              intro hc
              rcases List.mem_append.mp hc with hc | hc
              · exact absurd hc (by decide)
              · rcases List.mem_append.mp hc with hc | hc
                · exact isSignedDigits_no_comma x hx hc
                · rcases List.mem_cons.mp hc with hc | hc
                  · exact absurd hc (by decide)
                  · rw [hy] at hc; cases hc
            refine ⟨fun _ => ⟨?_, x, y, hdata, hx, Or.inl hy⟩,
              fun hc => absurd hc hnc, fun hne => absurd h2.symm hne⟩
            rw [← h1]
            exact ⟨hb1, hb3, show (T : ℤ) - 1 < T by omega⟩
        · rw [if_neg hy] at hres
          cases hP1 : goParseInt y with
          | none =>
            simp only [hP1] at hres
            rw [Prod.mk.injEq] at hres
            obtain ⟨h1, h2⟩ := hres
            exact ⟨fun he => absurd (h2.trans he) (by simp),
              fun _ => by rw [← h2]; simp, fun _ => h1.symm⟩
          | some eb =>
            simp only [hP1] at hres
            have hyd : isSignedDigits y = true := goParseInt_signedDigits y eb hP1
            by_cases hbad : sb < 0 ∨ T ≤ eb ∨ eb < sb
            · rw [if_pos hbad] at hres
              rw [Prod.mk.injEq] at hres
              obtain ⟨h1, h2⟩ := hres
              exact ⟨fun he => absurd (h2.trans he) (by simp),
                fun _ => by rw [← h2]; simp, fun _ => h1.symm⟩
            · rw [if_neg hbad] at hres
              rw [Prod.mk.injEq] at hres
              obtain ⟨h1, h2⟩ := hres
              push_neg at hbad
              obtain ⟨hb1, hb2, hb3⟩ := hbad
              have hnc : ',' ∉ header.data := by
                rw [hdata]
                intro hc
                rcases List.mem_append.mp hc with hc | hc
                · exact absurd hc (by decide)
                · rcases List.mem_append.mp hc with hc | hc
                  · exact isSignedDigits_no_comma x hx hc
                  · rcases List.mem_cons.mp hc with hc | hc
                    · exact absurd hc (by decide)
                    · exact isSignedDigits_no_comma y hyd hc
              refine ⟨fun _ => ⟨?_, x, y, hdata, hx, Or.inr hyd⟩,
                fun hc => absurd hc hnc, fun hne => absurd h2.symm hne⟩
              rw [← h1]
              exact ⟨hb1, hb3, hb2⟩

/-- Witness for C4: the multi-range header bytes=0-5,10-20 is not the
whole resource, is rejected with an error, and the range stays zero. -/
theorem parseHTTPRange_nonFast_validation_witness :
    ((some "invalid end byte value" : Option String) = none →
      (0 ≤ (⟨0, 0, 0, 0⟩ : NPTRange).startByte ∧
        (⟨0, 0, 0, 0⟩ : NPTRange).startByte ≤ (⟨0, 0, 0, 0⟩ : NPTRange).endByte ∧
        (⟨0, 0, 0, 0⟩ : NPTRange).endByte < 100) ∧
      ∃ p0 p1, ("bytes=0-5,10-20" : String).data = "bytes=".data ++ p0 ++ '-' :: p1 ∧
        isSignedDigits p0 = true ∧ (p1 = [] ∨ isSignedDigits p1 = true)) ∧
    (',' ∈ ("bytes=0-5,10-20" : String).data → (some "invalid end byte value" : Option String) ≠ none) ∧
    ((some "invalid end byte value" : Option String) ≠ none → (⟨0, 0, 0, 0⟩ : NPTRange) = ⟨0, 0, 0, 0⟩) :=
  parseHTTPRange_nonFast_validation "bytes=0-5,10-20" 100 777 ⟨0, 0, 0, 0⟩
    (some "invalid end byte value") (by decide) (by decide)

/-! ### Claim C7: decimal digit machinery for the round trip -/

/-- digitChar_isDigit: rendered digits are ASCII digits. -/
theorem digitChar_isDigit (d : ℕ) (h : d < 10) : (digitChar d).isDigit = true := by
  interval_cases d <;> decide

/-- digitChar_toNat: the code point of a rendered digit. -/
theorem digitChar_toNat (d : ℕ) (h : d < 10) : (digitChar d).toNat = 48 + d := by
  interval_cases d <;> decide

/-- natOfDigits_append_one: folding one more digit. -/
theorem natOfDigits_append_one (l : List Char) (c : Char) :
    natOfDigits (l ++ [c]) = 10 * natOfDigits l + (c.toNat - 48) := by
  simp [natOfDigits, List.foldl_append]

/-- digitsAux_ne_nil: the rendering of a number is never empty. -/
theorem digitsAux_ne_nil (fuel n : ℕ) (h : n < fuel) : digitsAux fuel n ≠ [] := by
  cases fuel with
  | zero => omega
  | succ f =>
    by_cases h10 : n < 10
    · simp [digitsAux, h10]
    · simp [digitsAux, h10]

/-- digitsAux_all_digits: every character of a rendering is a digit. -/
theorem digitsAux_all_digits (fuel : ℕ) :
    ∀ n, n < fuel → ∀ c ∈ digitsAux fuel n, c.isDigit = true := by
  induction fuel with
  | zero => intro n h; omega
  | succ f ih =>
    intro n h c hc
    by_cases h10 : n < 10
    · rw [digitsAux, if_pos h10] at hc
      rcases List.mem_cons.mp hc with h' | h'
      · rw [h']; exact digitChar_isDigit n h10
      · cases h'
    · rw [digitsAux, if_neg h10] at hc
      rcases List.mem_append.mp hc with h' | h'
      · exact ih (n / 10) (by omega) c h'
      · rcases List.mem_cons.mp h' with h'' | h''
        · rw [h'']; exact digitChar_isDigit (n % 10) (by omega)
        · cases h''

/-- natOfDigits_digitsAux: the rendering evaluates back to the number. -/
theorem natOfDigits_digitsAux (fuel : ℕ) :
    ∀ n, n < fuel → natOfDigits (digitsAux fuel n) = n := by
  induction fuel with
  | zero => intro n h; omega
  | succ f ih =>
    intro n h
    by_cases h10 : n < 10
    · rw [digitsAux, if_pos h10]
      show 10 * 0 + ((digitChar n).toNat - 48) = n
      rw [digitChar_toNat n h10]
      omega
    · rw [digitsAux, if_neg h10, natOfDigits_append_one,
        ih (n / 10) (by omega), digitChar_toNat (n % 10) (by omega)]
      omega

/-- digitsAux_len_le: a number below 10^k renders in at most k digits. -/
theorem digitsAux_len_le (fuel : ℕ) :
    ∀ n k, n < fuel → n < 10 ^ k → 1 ≤ k → (digitsAux fuel n).length ≤ k := by
  induction fuel with
  | zero => intro n k h; omega
  | succ f ih =>
    intro n k h hk h1
    by_cases h10 : n < 10
    · rw [digitsAux, if_pos h10]
      simpa using h1
    · rw [digitsAux, if_neg h10]
      have hk2 : 2 ≤ k := by
        by_contra hlt
        interval_cases k <;> omega
      have hlen : (digitsAux f (n / 10)).length ≤ k - 1 := by
        apply ih (n / 10) (k - 1) (by omega) _ (by omega)
        have hp : 10 ^ k = 10 ^ (k - 1) * 10 := by
          rw [← pow_succ]
          congr 1
          omega
        omega
      simp only [List.length_append, List.length_cons, List.length_nil]
      omega

/-- natOfDigits_padZeros: leading zeroes do not change the value. -/
theorem natOfDigits_padZeros (w : ℕ) (l : List Char) :
    natOfDigits (padZeros w l) = natOfDigits l := by
  rw [padZeros]
  generalize w - l.length = k
  induction k with
  | zero => rfl
  | succ j ih =>
    rw [List.replicate_succ]
    show natOfDigits ('0' :: (List.replicate j '0' ++ l)) = _
    have hz : natOfDigits ('0' :: (List.replicate j '0' ++ l)) =
        (List.replicate j '0' ++ l).foldl (fun acc c => 10 * acc + (c.toNat - 48)) 0 := by
      simp [natOfDigits]
    rw [hz]
    exact ih

/-- padZeros_all_digits: a zero-padded rendering is all digits. -/
theorem padZeros_all_digits (w n : ℕ) :
    ∀ c ∈ padZeros w (digitsOf n), c.isDigit = true := by
  intro c hc
  rcases List.mem_append.mp hc with h' | h'
  · rw [List.eq_of_mem_replicate h']; decide
  · exact digitsAux_all_digits (n + 1) n (by omega) c h'

/-- padZeros_ne_nil: a zero-padded rendering is nonempty. -/
theorem padZeros_ne_nil (w n : ℕ) : padZeros w (digitsOf n) ≠ [] := by
  intro h
  have hne := digitsAux_ne_nil (n + 1) n (by omega)
  rw [padZeros] at h
  rcases List.append_eq_nil.mp h with ⟨_, h2⟩
  exact hne h2

/-- padZeros_length: padding a short rendering reaches the width. -/
theorem padZeros_length (w : ℕ) (l : List Char) (h : l.length ≤ w) :
    (padZeros w l).length = w := by
  simp [padZeros]
  omega

/-- isDigit_not_space: a digit is not scanner whitespace. -/
theorem isDigit_not_space (c : Char) (h : c.isDigit = true) : isSpaceChar c = false := by
  by_contra hne
  have hsp : isSpaceChar c = true := by
    cases hx : isSpaceChar c
    · exact absurd hx hne
    · rfl
  simp only [isSpaceChar, decide_eq_true_eq] at hsp
  rcases hsp with rfl | rfl | rfl | rfl <;> exact absurd h (by decide)

/-- isDigit_not_sign: a digit is not a sign character. -/
theorem isDigit_not_sign (c : Char) (h : c.isDigit = true) : ¬ (c = '+' ∨ c = '-') := by
  rintro (rfl | rfl) <;> exact absurd h (by decide)

/-- takeWhile_all_digits: an all-digit list is taken whole. -/
theorem takeWhile_all_digits (l : List Char) (h : ∀ c ∈ l, c.isDigit = true) :
    l.takeWhile (fun x => x.isDigit) = l := by
  induction l with
  | nil => rfl
  | cons c t ih =>
    rw [List.takeWhile_cons, h c (List.mem_cons_self c t)]
    simp only [ite_true]
    rw [ih (fun x hx => h x (List.mem_cons_of_mem c hx))]

/-- takeWhile_digits_append: scanning digits stops at the first
non-digit character after an all-digit block. -/
theorem takeWhile_digits_append (ds rest : List Char)
    (hds : ∀ c ∈ ds, c.isDigit = true)
    (hrest : ∀ c, rest.head? = some c → c.isDigit = false) :
    (ds ++ rest).takeWhile (fun x => x.isDigit) = ds := by
  induction ds with
  | nil =>
    cases rest with
    | nil => rfl
    | cons r t =>
      simp only [List.nil_append, List.takeWhile_cons, hrest r rfl]
      rfl
  | cons d t ih =>
    rw [List.cons_append, List.takeWhile_cons, hds d (List.mem_cons_self d t)]
    simp only [ite_true]
    rw [ih (fun x hx => hds x (List.mem_cons_of_mem d hx))]

/-- scanIntCore_digits: a %d verb on an unsigned all-digit block with an
in-range value consumes exactly that block. -/
theorem scanIntCore_digits (w : Option ℕ) (ds rest : List Char)
    (hne : ds ≠ []) (hall : ∀ c ∈ ds, c.isDigit = true)
    (hn : (natOfDigits ds : ℤ) ≤ 2 ^ 63 - 1)
    (htake : ((ds ++ rest).take
        (match w with | none => (ds ++ rest).length | some k => k)).takeWhile
          (fun x => x.isDigit) = ds) :
    scanIntCore w (ds ++ rest) = Except.ok ((natOfDigits ds : ℤ), rest) := by
  cases ds with
  | nil => exact absurd rfl hne
  | cons c t =>
    have hcd : c.isDigit = true := hall c (List.mem_cons_self c t)
    have hdw : ((c :: t) ++ rest).dropWhile isSpaceChar = c :: (t ++ rest) := by
      rw [List.cons_append, List.dropWhile_cons, isDigit_not_space c hcd]
      simp
    have hsign := isDigit_not_sign c hcd
    have hneg : ¬ (c = '-') := fun h => hsign (Or.inr h)
    simp only [scanIntCore, hdw, if_neg hsign, if_neg hneg]
    simp only [← List.cons_append]
    cases w with
    | none =>
      dsimp only
      rw [htake]
      rw [if_neg (by simp : ¬ (c :: t = [])), if_pos hn, List.drop_left]
    | some k =>
      dsimp only
      simp only [Nat.sub_zero]
      rw [htake]
      rw [if_neg (by simp : ¬ (c :: t = [])), if_pos hn, List.drop_left]

/-- scanIntCore_pad: an unbounded %d verb on a zero-padded rendering
followed by a non-digit consumes exactly the rendering. -/
theorem scanIntCore_pad (w n : ℕ) (rest : List Char)
    (hn : (n : ℤ) ≤ 2 ^ 63 - 1)
    (hrest : ∀ c, rest.head? = some c → c.isDigit = false) :
    scanIntCore none (padZeros w (digitsOf n) ++ rest) = Except.ok ((n : ℤ), rest) := by
  have hv : natOfDigits (padZeros w (digitsOf n)) = n := by
    rw [natOfDigits_padZeros]
    exact natOfDigits_digitsAux (n + 1) n (by omega)
  have h := scanIntCore_digits none (padZeros w (digitsOf n)) rest
    (padZeros_ne_nil w n) (padZeros_all_digits w n) (by rw [hv]; exact hn)
    (by
      rw [List.take_length]
      exact takeWhile_digits_append _ _ (padZeros_all_digits w n) hrest)
  rw [hv] at h
  exact h

/-- scanIntCore_pad_width: a width-limited %d verb on a rendering padded
to exactly the width consumes exactly the rendering. -/
theorem scanIntCore_pad_width (k n : ℕ) (rest : List Char)
    (hn : (n : ℤ) ≤ 2 ^ 63 - 1) (hlen : (padZeros k (digitsOf n)).length = k) :
    scanIntCore (some k) (padZeros k (digitsOf n) ++ rest) = Except.ok ((n : ℤ), rest) := by
  have hv : natOfDigits (padZeros k (digitsOf n)) = n := by
    rw [natOfDigits_padZeros]
    exact natOfDigits_digitsAux (n + 1) n (by omega)
  have h := scanIntCore_digits (some k) (padZeros k (digitsOf n)) rest
    (padZeros_ne_nil k n) (padZeros_all_digits k n) (by rw [hv]; exact hn)
    (by
      have hteq := List.take_left (padZeros k (digitsOf n)) rest
      rw [hlen] at hteq
      show ((padZeros k (digitsOf n) ++ rest).take k).takeWhile (fun x => x.isDigit) = _
      rw [hteq]
      exact takeWhile_all_digits _ (padZeros_all_digits k n))
  rw [hv] at h
  exact h

/-- sscanfNPT_canon: scanning a canonical zero-padded rendering yields
the four components, all verbs scanned, and no error. -/
theorem sscanfNPT_canon (h m s ms : ℕ) (hh : (h : ℤ) ≤ 2 ^ 63 - 1)
    (hm : m < 100) (hs : s < 100) (hms : ms < 1000) :
    sscanfNPT (canonNPT h m s ms) = ((↑h, ↑m, ↑s, ↑ms), 4, none) := by
  have hm2 : (padZeros 2 (digitsOf m)).length = 2 :=
    padZeros_length 2 _ (digitsAux_len_le (m + 1) m 2 (by omega) (by omega) (by omega))
  have hs2 : (padZeros 2 (digitsOf s)).length = 2 :=
    padZeros_length 2 _ (digitsAux_len_le (s + 1) s 2 (by omega) (by omega) (by omega))
  have hms3 : (padZeros 3 (digitsOf ms)).length = 3 :=
    padZeros_length 3 _ (digitsAux_len_le (ms + 1) ms 3 (by omega) (by omega) (by omega))
  have e1 : scanIntCore none ((canonNPT h m s ms).data) =
      Except.ok ((h : ℤ), ':' :: (padZeros 2 (digitsOf m) ++ ':' ::
        (padZeros 2 (digitsOf s) ++ '.' :: padZeros 3 (digitsOf ms)))) :=
    scanIntCore_pad 2 h _ hh (by intro c hc; simp at hc; subst hc; decide)
  have e2 : expectChar ':' (':' :: (padZeros 2 (digitsOf m) ++ ':' ::
      (padZeros 2 (digitsOf s) ++ '.' :: padZeros 3 (digitsOf ms)))) =
      Except.ok (padZeros 2 (digitsOf m) ++ ':' ::
        (padZeros 2 (digitsOf s) ++ '.' :: padZeros 3 (digitsOf ms))) := by
    simp [expectChar]
  have e3 : scanIntCore (some 2) (padZeros 2 (digitsOf m) ++ ':' ::
      (padZeros 2 (digitsOf s) ++ '.' :: padZeros 3 (digitsOf ms))) =
      Except.ok ((m : ℤ), ':' :: (padZeros 2 (digitsOf s) ++ '.' :: padZeros 3 (digitsOf ms))) :=
    scanIntCore_pad_width 2 m _ (by omega) hm2
  have e4 : expectChar ':' (':' :: (padZeros 2 (digitsOf s) ++ '.' :: padZeros 3 (digitsOf ms))) =
      Except.ok (padZeros 2 (digitsOf s) ++ '.' :: padZeros 3 (digitsOf ms)) := by
    simp [expectChar]
  have e5 : scanIntCore (some 2) (padZeros 2 (digitsOf s) ++ '.' :: padZeros 3 (digitsOf ms)) =
      Except.ok ((s : ℤ), '.' :: padZeros 3 (digitsOf ms)) :=
    scanIntCore_pad_width 2 s _ (by omega) hs2
  have e6 : expectChar '.' ('.' :: padZeros 3 (digitsOf ms)) =
      Except.ok (padZeros 3 (digitsOf ms)) := by
    simp [expectChar]
  have e7 : scanIntCore (some 3) (padZeros 3 (digitsOf ms)) = Except.ok ((ms : ℤ), []) := by
    have h7 := scanIntCore_pad_width 3 ms [] (by omega) hms3
    rwa [List.append_nil] at h7
  simp only [sscanfNPT, e1, e2, e3, e4, e5, e6, e7]

/-- wrap64_id: int64 arithmetic without overflow is exact. -/
theorem wrap64_id (x : ℤ) (h1 : -(2 ^ 63) ≤ x) (h2 : x < 2 ^ 63) : wrap64 x = x := by
  unfold wrap64
  omega

/-- nptDuration_nonneg_small: the wrapped duration accumulation is the
plain sum when the total fits in int64. -/
theorem nptDuration_nonneg_small (h m s ms : ℕ)
    (hb : h * 3600000000000 + m * 60000000000 + s * 1000000000 + ms * 1000000 ≤ 2 ^ 63 - 1) :
    nptDuration ↑h ↑m ↑s ↑ms =
      ((h * 3600000000000 + m * 60000000000 + s * 1000000000 + ms * 1000000 : ℕ) : ℤ) := by
  have hb' : (h : ℤ) * 3600000000000 + (m : ℤ) * 60000000000 + (s : ℤ) * 1000000000 +
      (ms : ℤ) * 1000000 ≤ 2 ^ 63 - 1 := by omega
  have h1 : 0 ≤ (h : ℤ) * 3600000000000 := by omega
  have h2 : 0 ≤ (m : ℤ) * 60000000000 := by omega
  have h3 : 0 ≤ (s : ℤ) * 1000000000 := by omega
  have h4 : 0 ≤ (ms : ℤ) * 1000000 := by omega
  show wrap64 (wrap64 (wrap64 (wrap64 ((h : ℤ) * 3600000000000) +
      wrap64 ((m : ℤ) * 60000000000)) + wrap64 ((s : ℤ) * 1000000000)) +
      wrap64 ((ms : ℤ) * 1000000)) = _
  rw [wrap64_id ((h : ℤ) * 3600000000000) (by omega) (by omega),
    wrap64_id ((m : ℤ) * 60000000000) (by omega) (by omega),
    wrap64_id ((s : ℤ) * 1000000000) (by omega) (by omega),
    wrap64_id ((ms : ℤ) * 1000000) (by omega) (by omega),
    wrap64_id ((h : ℤ) * 3600000000000 + (m : ℤ) * 60000000000) (by omega) (by omega),
    wrap64_id ((h : ℤ) * 3600000000000 + (m : ℤ) * 60000000000 + (s : ℤ) * 1000000000)
      (by omega) (by omega),
    wrap64_id ((h : ℤ) * 3600000000000 + (m : ℤ) * 60000000000 + (s : ℤ) * 1000000000 +
      (ms : ℤ) * 1000000) (by omega) (by omega)]
  push_cast
  ring

/-- tdiv_natCast: Go integer division of nonnegative values is Nat
division. -/
theorem tdiv_natCast (a b : ℕ) : Int.tdiv (a : ℤ) (b : ℤ) = ((a / b : ℕ) : ℤ) := rfl

/-- tmod_natCast: Go integer remainder of nonnegative values is Nat
remainder. -/
theorem tmod_natCast (a b : ℕ) : Int.tmod (a : ℤ) (b : ℤ) = ((a % b : ℕ) : ℤ) := rfl

/-- mk_append_mk: appending strings appends their character lists. -/
theorem mk_append_mk (a b : List Char) : String.mk a ++ String.mk b = String.mk (a ++ b) := rfl

/-- intPad_natCast: padding a nonnegative value is padding its digits. -/
theorem intPad_natCast (w n : ℕ) : intPad w (n : ℤ) = String.mk (padZeros w (digitsOf n)) := by
  rw [intPad, if_neg (by exact not_lt.mpr (Int.natCast_nonneg n)), Int.toNat_natCast]

/-- formatNPTTime_canon: formatting the exact nanosecond total of
in-range components renders the canonical zero-padded string. -/
theorem formatNPTTime_canon (h m s ms : ℕ) (hm : m < 60) (hs : s < 60) (hms : ms < 1000) :
    formatNPTTime ((h * 3600000000000 + m * 60000000000 + s * 1000000000 + ms * 1000000 : ℕ) : ℤ) =
      canonNPT h m s ms := by
  rw [formatNPTTime]
  rw [show (1000000 : ℤ) = ((1000000 : ℕ) : ℤ) from rfl,
    show (1000 : ℤ) = ((1000 : ℕ) : ℤ) from rfl,
    show (60 : ℤ) = ((60 : ℕ) : ℤ) from rfl]
  rw [tdiv_natCast]
  have d1 : (h * 3600000000000 + m * 60000000000 + s * 1000000000 + ms * 1000000) / 1000000 =
      h * 3600000 + m * 60000 + s * 1000 + ms := by omega
  rw [d1, tmod_natCast, tdiv_natCast]
  have d2 : (h * 3600000 + m * 60000 + s * 1000 + ms) % 1000 = ms := by omega
  have d3 : (h * 3600000 + m * 60000 + s * 1000 + ms) / 1000 = h * 3600 + m * 60 + s := by omega
  rw [d2, d3, tmod_natCast, tdiv_natCast]
  have d4 : (h * 3600 + m * 60 + s) % 60 = s := by omega
  have d5 : (h * 3600 + m * 60 + s) / 60 = h * 60 + m := by omega
  rw [d4, d5, tmod_natCast, tdiv_natCast]
  have d6 : (h * 60 + m) % 60 = m := by omega
  have d7 : (h * 60 + m) / 60 = h := by omega
  rw [d6, d7]
  rw [intPad_natCast, intPad_natCast, intPad_natCast, intPad_natCast]
  rw [show (":" : String) = String.mk [':'] from rfl, show ("." : String) = String.mk ['.'] from rfl]
  rw [mk_append_mk, mk_append_mk, mk_append_mk, mk_append_mk, mk_append_mk, mk_append_mk]
  rw [canonNPT]
  congr 1
  simp

/-- C7 (amended): for every canonical NPT string in the zero-padded form
HH:MM:SS.mmm (hour field rendered with %02d, so two or more digits;
minute and second below 60, three fractional digits) whose encoded
duration fits in a signed 64-bit nanosecond count, ParseNPTTime succeeds
with the exact duration and FormatNPTTime maps that duration back to the
same string, so formatNPT(parseNPT(s)) = s. -/
theorem formatNPT_parseNPT_roundTrip (h m s ms : ℕ) (hm : m < 60) (hs : s < 60) (hms : ms < 1000)
    (hb : h * 3600000000000 + m * 60000000000 + s * 1000000000 + ms * 1000000 ≤ 2 ^ 63 - 1) :
    parseNPTTime (canonNPT h m s ms) =
      (((h * 3600000000000 + m * 60000000000 + s * 1000000000 + ms * 1000000 : ℕ) : ℤ), none) ∧
    formatNPTTime ((h * 3600000000000 + m * 60000000000 + s * 1000000000 + ms * 1000000 : ℕ) : ℤ) =
      canonNPT h m s ms := by
  have hh : (h : ℤ) ≤ 2 ^ 63 - 1 := by omega
  constructor
  · simp only [parseNPTTime, sscanfNPT_canon h m s ms hh (by omega) (by omega) hms]
    rw [if_neg (by omega)]
    rw [nptDuration_nonneg_small h m s ms hb]
  · exact formatNPTTime_canon h m s ms hm hs hms

/-- Witness for the amended C7 at 01:00:00.000. -/
theorem formatNPT_parseNPT_roundTrip_witness :
    parseNPTTime (canonNPT 1 0 0 0) =
      (((1 * 3600000000000 + 0 * 60000000000 + 0 * 1000000000 + 0 * 1000000 : ℕ) : ℤ), none) ∧
    formatNPTTime ((1 * 3600000000000 + 0 * 60000000000 + 0 * 1000000000 + 0 * 1000000 : ℕ) : ℤ) =
      canonNPT 1 0 0 0 :=
  formatNPT_parseNPT_roundTrip 1 0 0 0 (by decide) (by decide) (by decide) (by decide)

/-- C7 counterexample: the canonical single-digit-hour string
1:00:00.000 round-trips to 01:00:00.000, not to itself, because
FormatNPTTime zero-pads the hour to two digits; and a canonical string
whose duration overflows int64 (2562048 hours) does not round-trip
either, because the accumulation wraps. -/
theorem formatNPT_parseNPT_roundTrip_counterexample :
    formatNPTTime (parseNPTTime "1:00:00.000").1 = "01:00:00.000" ∧
    ("01:00:00.000" : String) ≠ "1:00:00.000" ∧
    formatNPTTime (parseNPTTime "2562048:00:00.000").1 ≠ "2562048:00:00.000" := by decide

/-! ### Claim C2: the float64 model and its characterisation

The lemmas below characterise bitLen, ratFloorLog2, rneNat, flPair and
mathRoundPos over ℚ, and combine them into monotonicity and boundary
exactness of calculateNPTPosition. -/

/-- bitLenAux_zero: zero has no binary digits. -/
theorem bitLenAux_zero (fuel : ℕ) : bitLenAux fuel 0 = 0 := by
  cases fuel with
  | zero => rfl
  | succ f => simp [bitLenAux]

/-- bitLenAux_spec: the binary length brackets a positive number between
consecutive powers of two. -/
theorem bitLenAux_spec (fuel : ℕ) :
    ∀ n, n ≤ fuel → 1 ≤ n →
      2 ^ (bitLenAux fuel n - 1) ≤ n ∧ n < 2 ^ bitLenAux fuel n ∧ 1 ≤ bitLenAux fuel n := by
  induction fuel with
  | zero => intro n h1 h2; omega
  | succ f ih =>
    intro n h1 h2
    rw [bitLenAux, if_neg (by omega)]
    by_cases h10 : n / 2 = 0
    · have hn1 : n = 1 := by omega
      rw [h10, bitLenAux_zero]
      subst hn1
      norm_num
    · have hrec := ih (n / 2) (by omega) (by omega)
      obtain ⟨hlo, hhi, hone⟩ := hrec
      set k := bitLenAux f (n / 2) with hk
      refine ⟨?_, ?_, by omega⟩
      · have hp : 2 ^ (k + 1 - 1) = 2 * 2 ^ (k - 1) := by
          rw [show k + 1 - 1 = (k - 1) + 1 by omega, pow_succ]
          ring
        rw [hp]
        omega
      · have hp : 2 ^ (k + 1) = 2 * 2 ^ k := by rw [pow_succ]; ring
        rw [hp]
        omega

/-- bitLen_spec: instantiation of bitLenAux_spec at fuel n. -/
theorem bitLen_spec (n : ℕ) (h : 1 ≤ n) :
    2 ^ (bitLen n - 1) ≤ n ∧ n < 2 ^ bitLen n ∧ 1 ≤ bitLen n :=
  bitLenAux_spec n n (le_refl n) h

/-- zpow_toNat_split: an integer power of two in ℚ as a quotient of two
natural powers (one of the two exponents is zero). -/
theorem zpow_toNat_split (i : ℤ) :
    (2 : ℚ) ^ i = 2 ^ i.toNat / 2 ^ (-i).toNat := by
  by_cases h : 0 ≤ i
  · rw [show (-i).toNat = 0 by omega, pow_zero, div_one,
      show i.toNat = i.toNat from rfl, ← zpow_natCast (2 : ℚ) i.toNat,
      Int.toNat_of_nonneg h]
  · rw [show i.toNat = 0 by omega, pow_zero,
      ← zpow_natCast (2 : ℚ) (-i).toNat, Int.toNat_of_nonneg (by omega)]
    rw [eq_div_iff (by positivity), ← zpow_add₀ (by norm_num : (2:ℚ) ≠ 0)]
    norm_num

/-- ratFloorLog2_spec: ratFloorLog2 n d is the floor base-2 logarithm of
the positive rational n/d. -/
theorem ratFloorLog2_spec (n d : ℕ) (hn : 1 ≤ n) (hd : 1 ≤ d) :
    (2 : ℚ) ^ ratFloorLog2 n d ≤ (n : ℚ) / d ∧ (n : ℚ) / d < 2 ^ (ratFloorLog2 n d + 1) := by
  obtain ⟨hna, hnb, hn1⟩ := bitLen_spec n hn
  obtain ⟨hda, hdb, hd1⟩ := bitLen_spec d hd
  set a : ℤ := (bitLen n : ℤ) - 1 with ha
  set b : ℤ := (bitLen d : ℤ) - 1 with hb
  have hd0 : (0 : ℚ) < d := by exact_mod_cast hd
  have hn0 : (0 : ℚ) < n := by exact_mod_cast hn
  -- cast the bitLen bounds to ℚ with integer exponents
  have hnaQ : (2 : ℚ) ^ a ≤ n := by
    have : ((2 ^ (bitLen n - 1) : ℕ) : ℚ) ≤ n := by exact_mod_cast hna
    rw [Nat.cast_pow] at this
    rw [show a = ((bitLen n - 1 : ℕ) : ℤ) by omega, zpow_natCast]
    exact_mod_cast this
  have hnbQ : (n : ℚ) < 2 ^ (a + 1) := by
    have : (n : ℚ) < ((2 ^ bitLen n : ℕ) : ℚ) := by exact_mod_cast hnb
    rw [Nat.cast_pow] at this
    rw [show a + 1 = ((bitLen n : ℕ) : ℤ) by omega, zpow_natCast]
    exact_mod_cast this
  have hdaQ : (2 : ℚ) ^ b ≤ d := by
    have : ((2 ^ (bitLen d - 1) : ℕ) : ℚ) ≤ d := by exact_mod_cast hda
    rw [Nat.cast_pow] at this
    rw [show b = ((bitLen d - 1 : ℕ) : ℤ) by omega, zpow_natCast]
    exact_mod_cast this
  have hdbQ : (d : ℚ) < 2 ^ (b + 1) := by
    have : (d : ℚ) < ((2 ^ bitLen d : ℕ) : ℚ) := by exact_mod_cast hdb
    rw [Nat.cast_pow] at this
    rw [show b + 1 = ((bitLen d : ℕ) : ℤ) by omega, zpow_natCast]
    exact_mod_cast this
  -- the guard of ratFloorLog2, as a ℚ comparison
  have hguard : (d * 2 ^ (a - b).toNat ≤ n * 2 ^ (b - a).toNat) ↔
      (2 : ℚ) ^ (a - b) ≤ (n : ℚ) / d := by
    rw [zpow_toNat_split (a - b), show -(a - b) = b - a by ring]
    rw [div_le_div_iff (by positivity) hd0]
    constructor
    · intro h
      have : ((d * 2 ^ (a - b).toNat : ℕ) : ℚ) ≤ ((n * 2 ^ (b - a).toNat : ℕ) : ℚ) := by
        exact_mod_cast h
      push_cast at this
      linarith
    · intro h
      have : ((d * 2 ^ (a - b).toNat : ℕ) : ℚ) ≤ ((n * 2 ^ (b - a).toNat : ℕ) : ℚ) := by
        push_cast
        linarith
      exact_mod_cast this
  rw [ratFloorLog2]
  by_cases hc : d * 2 ^ (a - b).toNat ≤ n * 2 ^ (b - a).toNat
  · rw [if_pos hc]
    refine ⟨hguard.mp hc, ?_⟩
    -- n/d < 2^(a+1)/2^b = 2^(a-b+1)
    have hlt : (n : ℚ) / d < 2 ^ (a + 1) / 2 ^ b := by
      apply div_lt_div hnbQ hdaQ (by positivity) (by positivity)
    calc (n : ℚ) / d < 2 ^ (a + 1) / 2 ^ b := hlt
      _ = 2 ^ (a - b + 1) := by
          rw [eq_comm, eq_div_iff (by positivity), ← zpow_add₀ (by norm_num : (2:ℚ) ≠ 0)]
          congr 1
          ring
  · rw [if_neg hc]
    constructor
    · -- 2^(a-b-1) ≤ n/d since 2^a/2^(b+1) < n/d
      have hlt : (2 : ℚ) ^ a / 2 ^ (b + 1) < (n : ℚ) / d := by
        apply div_lt_div' hnaQ hdbQ (by positivity) hd0
      have heq : (2 : ℚ) ^ a / 2 ^ (b + 1) = 2 ^ (a - b - 1) := by
        rw [eq_comm, eq_div_iff (by positivity), ← zpow_add₀ (by norm_num : (2:ℚ) ≠ 0)]
        congr 1
        ring
      rw [← heq]
      exact le_of_lt hlt
    · have := (not_iff_not.mpr hguard).mp hc
      rw [show a - b - 1 + 1 = a - b by ring]
      exact lt_of_not_le this

/-- ratFloorLog2_mono: the floor logarithm is monotone in the numerator. -/
theorem ratFloorLog2_mono (n1 n2 d : ℕ) (h1 : 1 ≤ n1) (hd : 1 ≤ d) (h12 : n1 ≤ n2) :
    ratFloorLog2 n1 d ≤ ratFloorLog2 n2 d := by
  by_contra hcon
  push_neg at hcon
  have hd0 : (0 : ℚ) < d := by exact_mod_cast hd
  have hs1 := (ratFloorLog2_spec n1 d h1 hd).1
  have hs2 := (ratFloorLog2_spec n2 d (le_trans h1 h12) hd).2
  have hdiv : (n1 : ℚ) / d ≤ (n2 : ℚ) / d := by
    apply div_le_div_of_nonneg_right ?_ hd0.le
    exact_mod_cast h12
  have hz : (2 : ℚ) ^ (ratFloorLog2 n2 d + 1) ≤ 2 ^ (ratFloorLog2 n1 d) :=
    zpow_le_zpow_right₀ one_le_two (by omega)
  linarith

/-- rneNat_ge: rounding to nearest is at least the floor. -/
theorem rneNat_ge (num den : ℕ) : num / den ≤ rneNat num den := by
  simp only [rneNat]
  split_ifs <;> omega

/-- rneNat_le: rounding to nearest is at most the floor plus one. -/
theorem rneNat_le (num den : ℕ) : rneNat num den ≤ num / den + 1 := by
  simp only [rneNat]
  split_ifs <;> omega

/-- rneNat_mul: an exact multiple rounds to itself. -/
theorem rneNat_mul (k den : ℕ) (hd : 0 < den) : rneNat (k * den) den = k := by
  simp only [rneNat, Nat.mul_div_cancel _ hd, Nat.mul_mod_left]
  rw [if_pos (by omega)]

/-- rneNat_mono: rounding to nearest (ties to even) is monotone for a
fixed denominator. -/
theorem rneNat_mono (num1 num2 den : ℕ) (hd : 0 < den) (h : num1 ≤ num2) :
    rneNat num1 den ≤ rneNat num2 den := by
  have hq : num1 / den ≤ num2 / den := Nat.div_le_div_right h
  by_cases hqe : num1 / den = num2 / den
  · have hm1 := Nat.div_add_mod num1 den
    have hm2 := Nat.div_add_mod num2 den
    have hsum : den * (num2 / den) + num1 % den ≤ den * (num2 / den) + num2 % den := by
      rw [← hqe] at hm2 ⊢
      rw [hm1, hm2]
      exact h
    have hr : num1 % den ≤ num2 % den := by omega
    simp only [rneNat]
    rw [hqe]
    set q := num2 / den
    set r1 := num1 % den
    set r2 := num2 % den
    split_ifs <;> omega
  · have hlt : num1 / den < num2 / den := lt_of_le_of_ne hq hqe
    calc rneNat num1 den ≤ num1 / den + 1 := rneNat_le _ _
      _ ≤ num2 / den := by omega
      _ ≤ rneNat num2 den := rneNat_ge _ _

/-- rneNat_le_of_lt_mul: an upper bound on the rounded value. -/
theorem rneNat_le_of_lt_mul (num den B : ℕ) (hd : 0 < den) (h : num < den * B) :
    rneNat num den ≤ B := by
  have hdiv : num / den < B := Nat.div_lt_of_lt_mul h
  have := rneNat_le num den
  omega

/-- le_rneNat_of_mul_le: a lower bound on the rounded value. -/
theorem le_rneNat_of_mul_le (num den B : ℕ) (hd : 0 < den) (h : den * B ≤ num) :
    B ≤ rneNat num den := by
  have hdiv : B ≤ num / den := (Nat.le_div_iff_mul_le hd).mpr (by linarith [Nat.mul_comm den B])
  have := rneNat_ge num den
  omega

/-- floor_intCast_add_half: rounding half away from zero fixes the
integers. -/
theorem floor_intCast_add_half (z : ℤ) : ⌊(z : ℚ) + 1 / 2⌋ = z := by
  rw [Int.floor_eq_iff]
  constructor
  · linarith
  · push_cast
    linarith

/-- mathRoundPos_eq_floor: mathRoundPos computes floor(value + 1/2) of
the represented float value. -/
theorem mathRoundPos_eq_floor (m : ℕ) (e : ℤ) :
    (mathRoundPos m e : ℤ) = ⌊(m : ℚ) * 2 ^ (e - 52) + 1 / 2⌋ := by
  by_cases he : 52 ≤ e
  · rw [mathRoundPos, if_pos he]
    have harg : (m : ℚ) * 2 ^ (e - 52) = (((m * 2 ^ (e - 52).toNat : ℕ) : ℤ) : ℚ) := by
      push_cast
      rw [← zpow_natCast (2 : ℚ) (e - 52).toNat, Int.toNat_of_nonneg (by omega)]
    rw [harg, floor_intCast_add_half]
  · rw [mathRoundPos, if_neg he]
    have hfloor := Rat.floor_natCast_div_natCast (2 * m + 2 ^ (52 - e).toNat)
      (2 ^ ((52 - e).toNat + 1))
    rw [show ((2 * m + 2 ^ (52 - e).toNat) / 2 ^ ((52 - e).toNat + 1) : ℕ) =
        ((2 * m + 2 ^ (52 - e).toNat) / 2 ^ ((52 - e).toNat + 1) : ℕ) from rfl]
    rw [show (((2 * m + 2 ^ (52 - e).toNat) / 2 ^ ((52 - e).toNat + 1) : ℕ) : ℤ) =
        ⌊((2 * m + 2 ^ (52 - e).toNat : ℕ) : ℚ) / ((2 ^ ((52 - e).toNat + 1) : ℕ) : ℚ)⌋ from
      hfloor.symm]
    congr 1
    have hke : (e - 52 : ℤ) = -(((52 - e).toNat : ℕ) : ℤ) := by omega
    rw [hke, zpow_neg, zpow_natCast]
    have hpow : (0 : ℚ) < 2 ^ (52 - e).toNat := by positivity
    push_cast
    field_simp
    ring

/-- pow_toNat_balance: the exponent bookkeeping identity used to move
between the scaled significand and the float value. -/
theorem pow_toNat_balance (e : ℤ) :
    (2 : ℚ) ^ e * 2 ^ (52 - e).toNat = 2 ^ (e - 52).toNat * 2 ^ (52 : ℕ) := by
  by_cases h : e ≤ 52
  · rw [show (e - 52).toNat = 0 by omega, pow_zero, one_mul,
      ← zpow_natCast (2 : ℚ) (52 - e).toNat, Int.toNat_of_nonneg (by omega),
      ← zpow_add₀ (by norm_num : (2 : ℚ) ≠ 0)]
    rw [show e + (52 - e : ℤ) = ((52 : ℕ) : ℤ) by push_cast; ring, zpow_natCast]
  · rw [show (52 - e).toNat = 0 by omega, pow_zero, mul_one,
      ← zpow_natCast (2 : ℚ) (e - 52).toNat, Int.toNat_of_nonneg (by omega),
      ← zpow_natCast (2 : ℚ) 52, ← zpow_add₀ (by norm_num : (2 : ℚ) ≠ 0)]
    congr 1
    push_cast
    ring

/-- flPair_m: the significand component of flPair. -/
theorem flPair_m (n d : ℕ) :
    (flPair n d).1 =
      rneNat (n * 2 ^ (52 - ratFloorLog2 n d).toNat) (d * 2 ^ (ratFloorLog2 n d - 52).toNat) :=
  rfl

/-- flPair_e: the exponent component of flPair. -/
theorem flPair_e (n d : ℕ) : (flPair n d).2 = ratFloorLog2 n d := rfl

/-- flPair_m_lower: the significand is at least 2^52. -/
theorem flPair_m_lower (n d : ℕ) (hn : 1 ≤ n) (hd : 1 ≤ d) :
    2 ^ 52 ≤ (flPair n d).1 := by
  have hd0 : (0 : ℚ) < d := by exact_mod_cast hd
  obtain ⟨hlo, _⟩ := ratFloorLog2_spec n d hn hd
  set e := ratFloorLog2 n d with he
  have h1 : (2 : ℚ) ^ e * d ≤ n := (le_div_iff hd0).mp hlo
  have h2 : ((2 : ℚ) ^ e * d) * 2 ^ (52 - e).toNat ≤ (n : ℚ) * 2 ^ (52 - e).toNat :=
    mul_le_mul_of_nonneg_right h1 (by positivity)
  have h3 : ((d * 2 ^ (e - 52).toNat * 2 ^ 52 : ℕ) : ℚ) ≤ ((n * 2 ^ (52 - e).toNat : ℕ) : ℚ) := by
    push_cast
    calc ((d : ℚ) * 2 ^ (e - 52).toNat * 2 ^ 52)
        = ((2 : ℚ) ^ e * 2 ^ (52 - e).toNat) * d := by rw [pow_toNat_balance]; ring
      _ = ((2 : ℚ) ^ e * d) * 2 ^ (52 - e).toNat := by ring
      _ ≤ (n : ℚ) * 2 ^ (52 - e).toNat := h2
  have hnat : d * 2 ^ (e - 52).toNat * 2 ^ 52 ≤ n * 2 ^ (52 - e).toNat := by exact_mod_cast h3
  rw [flPair_m, ← he]
  exact le_rneNat_of_mul_le _ _ _ (by positivity) hnat

/-- flPair_m_upper: the significand is at most 2^53. -/
theorem flPair_m_upper (n d : ℕ) (hn : 1 ≤ n) (hd : 1 ≤ d) :
    (flPair n d).1 ≤ 2 ^ 53 := by
  have hd0 : (0 : ℚ) < d := by exact_mod_cast hd
  obtain ⟨_, hhi⟩ := ratFloorLog2_spec n d hn hd
  set e := ratFloorLog2 n d with he
  have h1 : (n : ℚ) < 2 ^ (e + 1) * d := (div_lt_iff hd0).mp hhi
  have h2 : (n : ℚ) * 2 ^ (52 - e).toNat < ((2 : ℚ) ^ (e + 1) * d) * 2 ^ (52 - e).toNat :=
    mul_lt_mul_of_pos_right h1 (by positivity)
  have h3 : ((n * 2 ^ (52 - e).toNat : ℕ) : ℚ) < ((d * 2 ^ (e - 52).toNat * 2 ^ 53 : ℕ) : ℚ) := by
    push_cast
    calc (n : ℚ) * 2 ^ (52 - e).toNat
        < ((2 : ℚ) ^ (e + 1) * d) * 2 ^ (52 - e).toNat := h2
      _ = 2 * ((2 : ℚ) ^ e * 2 ^ (52 - e).toNat) * d := by
          rw [zpow_add₀ (by norm_num : (2 : ℚ) ≠ 0)]
          ring
      _ = 2 * (2 ^ (e - 52).toNat * 2 ^ (52 : ℕ)) * d := by rw [pow_toNat_balance]
      _ = (d : ℚ) * 2 ^ (e - 52).toNat * 2 ^ 53 := by ring
  have hnat : n * 2 ^ (52 - e).toNat < d * 2 ^ (e - 52).toNat * 2 ^ 53 := by exact_mod_cast h3
  rw [flPair_m, ← he]
  exact rneNat_le_of_lt_mul _ _ _ (by positivity) hnat

/-- flPair_val_mono: the rounded float value is monotone for a fixed
denominator. -/
theorem flPair_val_mono (n1 n2 d : ℕ) (h1 : 1 ≤ n1) (hd : 1 ≤ d) (h12 : n1 ≤ n2) :
    ((flPair n1 d).1 : ℚ) * 2 ^ ((flPair n1 d).2 - 52) ≤
      ((flPair n2 d).1 : ℚ) * 2 ^ ((flPair n2 d).2 - 52) := by
  have he12 : ratFloorLog2 n1 d ≤ ratFloorLog2 n2 d := ratFloorLog2_mono n1 n2 d h1 hd h12
  by_cases heq : ratFloorLog2 n1 d = ratFloorLog2 n2 d
  · rw [flPair_m, flPair_m, flPair_e, flPair_e, heq]
    apply mul_le_mul_of_nonneg_right ?_ (by positivity)
    have := rneNat_mono (n1 * 2 ^ (52 - ratFloorLog2 n2 d).toNat)
      (n2 * 2 ^ (52 - ratFloorLog2 n2 d).toNat)
      (d * 2 ^ (ratFloorLog2 n2 d - 52).toNat) (by positivity)
      (Nat.mul_le_mul_right _ h12)
    exact_mod_cast this
  · have hlt : ratFloorLog2 n1 d < ratFloorLog2 n2 d := lt_of_le_of_ne he12 heq
    have hm1 : ((flPair n1 d).1 : ℚ) ≤ 2 ^ (53 : ℕ) := by
      exact_mod_cast flPair_m_upper n1 d h1 hd
    have hm2 : (2 : ℚ) ^ (52 : ℕ) ≤ ((flPair n2 d).1 : ℚ) := by
      exact_mod_cast flPair_m_lower n2 d (le_trans h1 h12) hd
    rw [flPair_e, flPair_e]
    calc ((flPair n1 d).1 : ℚ) * 2 ^ (ratFloorLog2 n1 d - 52)
        ≤ 2 ^ (53 : ℕ) * 2 ^ (ratFloorLog2 n1 d - 52) :=
          mul_le_mul_of_nonneg_right hm1 (by positivity)
      _ = 2 ^ (ratFloorLog2 n1 d + 1) := by
          rw [← zpow_natCast (2 : ℚ) 53, ← zpow_add₀ (by norm_num : (2 : ℚ) ≠ 0)]
          congr 1
          push_cast
          ring
      _ ≤ 2 ^ (ratFloorLog2 n2 d) := zpow_le_zpow_right₀ one_le_two (by omega)
      _ = 2 ^ (52 : ℕ) * 2 ^ (ratFloorLog2 n2 d - 52) := by
          rw [← zpow_natCast (2 : ℚ) 52, ← zpow_add₀ (by norm_num : (2 : ℚ) ≠ 0)]
          congr 1
          push_cast
          ring
      _ ≤ ((flPair n2 d).1 : ℚ) * 2 ^ (ratFloorLog2 n2 d - 52) :=
          mul_le_mul_of_nonneg_right hm2 (by positivity)

/-- flPair_val_int: an integer value up to 2^53 is represented exactly. -/
theorem flPair_val_int (k d : ℕ) (hk : 1 ≤ k) (hk53 : k ≤ 2 ^ 53) (hd : 1 ≤ d) :
    ((flPair (k * d) d).1 : ℚ) * 2 ^ ((flPair (k * d) d).2 - 52) = k := by
  have hkd : 1 ≤ k * d := Nat.one_le_iff_ne_zero.mpr (by positivity)
  obtain ⟨hlo, hhi⟩ := ratFloorLog2_spec (k * d) d hkd hd
  have hd0 : (0 : ℚ) < d := by exact_mod_cast hd
  have hfrac : ((k * d : ℕ) : ℚ) / d = k := by
    push_cast
    field_simp
  rw [hfrac] at hlo hhi
  set e := ratFloorLog2 (k * d) d with he
  have he0 : 0 ≤ e := by
    by_contra hneg
    push_neg at hneg
    have hz : (2 : ℚ) ^ (e + 1) ≤ 2 ^ (0 : ℤ) := zpow_le_zpow_right₀ one_le_two (by omega)
    have hk1 : (1 : ℚ) ≤ k := by exact_mod_cast hk
    rw [zpow_zero] at hz
    linarith
  have he53 : e ≤ 53 := by
    by_contra hgt
    push_neg at hgt
    have hz : (2 : ℚ) ^ (54 : ℤ) ≤ 2 ^ e := zpow_le_zpow_right₀ one_le_two (by omega)
    have hk2 : (k : ℚ) ≤ 2 ^ (53 : ℕ) := by exact_mod_cast hk53
    have h54 : (2 : ℚ) ^ (54 : ℤ) = 2 ^ (54 : ℕ) := by
      rw [← zpow_natCast (2 : ℚ) 54]
      norm_num
    have hcmp : (2 : ℚ) ^ (53 : ℕ) < 2 ^ (54 : ℕ) := by norm_num
    linarith
  by_cases he52 : e ≤ 52
  · have hm : (flPair (k * d) d).1 = k * 2 ^ (52 - e).toNat := by
      rw [flPair_m, ← he]
      rw [show k * d * 2 ^ (52 - e).toNat = (k * 2 ^ (52 - e).toNat) * (d * 2 ^ (e - 52).toNat) by
        rw [show (e - 52).toNat = 0 by omega, pow_zero, mul_one]
        ring]
      exact rneNat_mul _ _ (by positivity)
    rw [hm, flPair_e, ← he]
    push_cast
    rw [mul_assoc, ← zpow_natCast (2 : ℚ) (52 - e).toNat, Int.toNat_of_nonneg (by omega),
      ← zpow_add₀ (by norm_num : (2 : ℚ) ≠ 0)]
    rw [show (52 - e) + (e - 52) = (0 : ℤ) by ring, zpow_zero, mul_one]
  · have he53' : e = 53 := by omega
    have hkq : (k : ℚ) = 2 ^ (53 : ℕ) := by
      have h1 : (2 : ℚ) ^ (53 : ℤ) ≤ k := by rw [← he53']; exact hlo
      have h2 : (k : ℚ) ≤ 2 ^ (53 : ℕ) := by exact_mod_cast hk53
      have h3 : (2 : ℚ) ^ (53 : ℤ) = 2 ^ (53 : ℕ) := by
        rw [← zpow_natCast (2 : ℚ) 53]
        norm_num
      linarith
    have hkn : k = 2 ^ 53 := by exact_mod_cast hkq
    subst hkn
    have hm : (flPair (2 ^ 53 * d) d).1 = 2 ^ 52 := by
      rw [flPair_m, ← he, he53']
      rw [show (2 : ℕ) ^ 53 * d * 2 ^ ((52 - (53 : ℤ)).toNat) =
          2 ^ 52 * (d * 2 ^ (((53 : ℤ) - 52).toNat)) by
        rw [show ((52 : ℤ) - 53).toNat = 0 by decide, show (((53 : ℤ) - 52)).toNat = 1 by decide]
        ring]
      exact rneNat_mul _ _ (by positivity)
    rw [hm, flPair_e, ← he, he53']
    norm_num

/-- calculateNPTPosition_pos_eq: on a positive product the function is
floor(float value + 1/2). -/
theorem calculateNPTPosition_pos_eq (b T D : ℤ) (hT : 0 < T) (hn : 0 < b * D) :
    calculateNPTPosition b T D =
      ⌊((flPair (b * D).natAbs T.toNat).1 : ℚ) *
        2 ^ ((flPair (b * D).natAbs T.toNat).2 - 52) + 1 / 2⌋ := by
  rw [calculateNPTPosition]
  rw [if_neg (by omega : ¬ T ≤ 0), if_neg (by omega : ¬ b * D = 0), if_pos hn]
  exact mathRoundPos_eq_floor _ _

/-- C2 (amended): for 0 < totalSize and 0 ≤ duration ≤ 2^63 - 1024 (the
bound under which the rounded float64 still fits in int64, keeping the
model exact for the Go code), the byte-offset-to-time mapping of
calculateNPTPosition is monotone non-decreasing on [0, totalSize], maps
offset 0 to time 0, and maps offset totalSize to exactly the total
duration provided the duration is at most 2^53 nanoseconds (so that
float64 represents it exactly). -/
theorem calculateNPTPosition_monotone_boundaries (T D b1 b2 : ℤ)
    (hT : 0 < T) (hT64 : T ≤ 2 ^ 63 - 1) (hD : 0 ≤ D) (hD64 : D ≤ 2 ^ 63 - 1024)
    (hb1 : 0 ≤ b1) (h12 : b1 ≤ b2) (hb2 : b2 ≤ T) :
    calculateNPTPosition b1 T D ≤ calculateNPTPosition b2 T D ∧
    calculateNPTPosition 0 T D = 0 ∧
    (D ≤ 2 ^ 53 → calculateNPTPosition T T D = D) := by
  have hTnat : 1 ≤ T.toNat := by omega
  refine ⟨?_, ?_, ?_⟩
  · by_cases hz1 : b1 * D = 0
    · have hL : calculateNPTPosition b1 T D = 0 := by
        rw [calculateNPTPosition, if_neg (by omega : ¬ T ≤ 0), if_pos hz1]
      rw [hL]
      by_cases hz2 : b2 * D = 0
      · rw [calculateNPTPosition, if_neg (by omega : ¬ T ≤ 0), if_pos hz2]
      · have hpos2 : 0 < b2 * D := by
          have : 0 ≤ b2 * D := mul_nonneg (by omega) hD
          omega
        rw [calculateNPTPosition, if_neg (by omega : ¬ T ≤ 0), if_neg hz2, if_pos hpos2]
        exact Int.natCast_nonneg _
    · have hpos1 : 0 < b1 * D := by
        have : 0 ≤ b1 * D := mul_nonneg hb1 hD
        omega
      have hle : b1 * D ≤ b2 * D := mul_le_mul_of_nonneg_right h12 hD
      have hpos2 : 0 < b2 * D := lt_of_lt_of_le hpos1 hle
      rw [calculateNPTPosition_pos_eq b1 T D hT hpos1,
        calculateNPTPosition_pos_eq b2 T D hT hpos2]
      apply Int.floor_le_floor
      have hmono := flPair_val_mono (b1 * D).natAbs (b2 * D).natAbs T.toNat
        (by omega) hTnat (by omega)
      linarith
  · rw [calculateNPTPosition, if_neg (by omega : ¬ T ≤ 0), if_pos (zero_mul D)]
  · intro hD53
    by_cases hD0 : D = 0
    · subst hD0
      rw [calculateNPTPosition, if_neg (by omega : ¬ T ≤ 0), if_pos (mul_zero T)]
    · have hDpos : 0 < D := by omega
      have hpos : 0 < T * D := mul_pos hT hDpos
      rw [calculateNPTPosition_pos_eq T T D hT hpos]
      have e1 : T.natAbs = T.toNat := by omega
      have e2 : D.natAbs = D.toNat := by omega
      have habs : (T * D).natAbs = D.toNat * T.toNat := by
        rw [Int.natAbs_mul, e1, e2, Nat.mul_comm]
      rw [habs]
      rw [flPair_val_int D.toNat T.toNat (by omega) (by omega) hTnat]
      have hcast : ((D.toNat : ℕ) : ℚ) = ((D : ℤ) : ℚ) := by
        exact_mod_cast Int.toNat_of_nonneg hD
      rw [hcast, floor_intCast_add_half]

/-- Witness for the amended C2 at totalSize 2, duration 1 second. -/
theorem calculateNPTPosition_monotone_boundaries_witness :
    calculateNPTPosition 1 2 1000000000 ≤ calculateNPTPosition 2 2 1000000000 ∧
    calculateNPTPosition 0 2 1000000000 = 0 ∧
    ((1000000000 : ℤ) ≤ 2 ^ 53 → calculateNPTPosition 2 2 1000000000 = 1000000000) :=
  calculateNPTPosition_monotone_boundaries 2 1000000000 1 2 (by decide) (by decide)
    (by decide) (by decide) (by decide) (by decide) (by decide)

/-- C2 counterexample: as stated for every duration the claim fails.
With totalSize 1 and duration -1 the derived time for offset 0 exceeds
the one for offset 1 (monotonicity fails for negative durations), and
with duration 2^53 + 1 (not representable in float64) offset totalSize
maps to 2^53 rather than the full duration (boundary exactness fails). -/
theorem calculateNPTPosition_claim_counterexample :
    ((0 : ℤ) < 1 ∧ (0 : ℤ) ≤ 0 ∧ (0 : ℤ) ≤ 1 ∧
      calculateNPTPosition 0 1 (-1) = 0 ∧ calculateNPTPosition 1 1 (-1) = -1) ∧
    (calculateNPTPosition 1 1 (2 ^ 53 + 1) = 2 ^ 53 ∧ (2 ^ 53 : ℤ) ≠ 2 ^ 53 + 1) := by
  decide
